import Mathlib

/-!
Verification of the orca LLM-orchestration library against its specification.

The definitions below are shallow embeddings of the Rust sources:
  - `clean_string` and the role/chat helpers from orca-core/src/prompt/chat.rs
  - `TemplateEngine.add_to_template` from orca-core/src/prompt/mod.rs
  - the `Prompt` trait impls (`save`, `to_chat`) from orca-core/src/prompt/mod.rs
  - the parallel embedding driver from orca-core/src/llm/openai.rs
  - the map-reduce master/worker message loop from src/chains/mapreduce
  - `Qdrant.insert_many` from orca-core/src/qdrant.rs
  - `Record.split` from src/record/mod.rs
Strings are modelled as `List Char` (Rust `String` is a sequence of scalar
values); machine integers do not overflow in any of the embedded code paths.
External collaborators (handlebars, serde_json, the text splitter) are
modelled where noted, faithful to their documented behaviour on the closed
grammar the code emits.
-/

set_option maxRecDepth 4000

namespace Orca

/-! ### Characters and Rust string primitives -/

/-- Rust `char::is_whitespace` (Unicode White_Space property). -/
def rustIsWs (c : Char) : Bool :=
  c.toNat = 0x09 || c.toNat = 0x0A || c.toNat = 0x0B || c.toNat = 0x0C ||
  c.toNat = 0x0D || c.toNat = 0x20 || c.toNat = 0x85 || c.toNat = 0xA0 ||
  c.toNat = 0x1680 || (0x2000 ≤ c.toNat && c.toNat ≤ 0x200A) ||
  c.toNat = 0x2028 || c.toNat = 0x2029 || c.toNat = 0x202F ||
  c.toNat = 0x205F || c.toNat = 0x3000

/-- Drop elements satisfying `p` from the end of a list. -/
def dropEndWhile (p : Char → Bool) (l : List Char) : List Char :=
  (l.reverse.dropWhile p).reverse

/-- Rust `str::trim`: remove whitespace from both ends. -/
def rustTrim (l : List Char) : List Char :=
  dropEndWhile rustIsWs (l.dropWhile rustIsWs)

/-! ### orca-core/src/prompt/chat.rs : character escaping -/

/-- The filter in `clean_string`: Rust keeps characters with `c > '\u{1F}'`. -/
def keepChar (c : Char) : Bool := 0x1F < c.toNat

/-- One arm of the `match` in `clean_string` (orca-core/src/prompt/chat.rs,
lines 136-152), written as an if-chain over the same character patterns. -/
def cleanChar (c : Char) : List Char :=
  if c = '"' then ['\\', '"']
  else if c = '\\' then ['\\', '\\']
  else if c = '/' then ['\\', '/']
  else if c = Char.ofNat 0x08 then ['\\', 'b']
  else if c = Char.ofNat 0x0C then ['\\', 'f']
  else if c = '\n' then ['\\', 'n']
  else if c = '\r' then ['\\', 'r']
  else if c = '\t' then ['\\', 't']
  else if c = '{' then ['\\', 'u', '0', '0', '7', 'B']
  else if c = '}' then ['\\', 'u', '0', '0', '7', 'D']
  else if c = '[' then ['\\', 'u', '0', '0', '5', 'B']
  else if c = ']' then ['\\', 'u', '0', '0', '5', 'D']
  else if c = ',' then ['\\', 'u', '0', '0', '2', 'C']
  else if c = ':' then ['\\', 'u', '0', '0', '3', 'A']
  else if c = '&' then ['&', 'a', 'm', 'p', ';']
  else [c]

/-- `clean_string` on character lists: `content.chars().filter(|&c| c > '\u{1F}').map(...).collect()`. -/
def cleanChars (s : List Char) : List Char :=
  ((s.filter keepChar).map cleanChar).flatten

/-- `clean_string` from orca-core/src/prompt/chat.rs lines 132-155. -/
def clean_string (s : String) : String := ⟨cleanChars s.data⟩

/-! ### Rust substring primitives (`str::contains`, `str::replace`) -/

/-- Rust `str::contains(pat)`: `pat` occurs as a contiguous substring. -/
def containsSub (s pat : List Char) : Bool :=
  pat.isPrefixOf s ||
    match s with
    | [] => false
    | _ :: t => containsSub t pat

/-- Rust `str::replace(pat, rep)`: replace every (leftmost, non-overlapping)
occurrence of `pat` by `rep`.  The code only calls this with the non-empty
patterns of the chat envelope. -/
def replaceAll (s pat rep : List Char) : List Char :=
  if h : pat.isPrefixOf s ∧ pat ≠ [] then
    rep ++ replaceAll (s.drop pat.length) pat rep
  else
    match s with
    | [] => []
    | c :: t => c :: replaceAll t pat rep
termination_by s.length
decreasing_by
  · have hle : pat.length ≤ s.length :=
      (List.isPrefixOf_iff_prefix.mp h.1).length_le
    have hpos : 0 < pat.length := List.length_pos.mpr h.2
    simp [List.length_drop]; omega
  · simp

/-- The opening chat-envelope marker. -/
def chatOpen : List Char := ['{', '{', '#', 'c', 'h', 'a', 't', '}', '}']

/-- The closing chat-envelope marker. -/
def chatClose : List Char := ['{', '{', '/', 'c', 'h', 'a', 't', '}', '}']

/-! ### orca-core/src/prompt/mod.rs : the template engine -/

/-- The body transformation done by `TemplateEngine::add_to_template`
(orca-core/src/prompt/mod.rs lines 88-101): if the stored body contains both
envelope markers, remove every occurrence of them, append the suffix, and
re-wrap in one envelope; otherwise just append. -/
def addToBody (body suffix : List Char) : List Char :=
  if containsSub body chatOpen && containsSub body chatClose then
    chatOpen ++ (replaceAll (replaceAll body chatOpen []) chatClose [] ++ suffix)
      ++ chatClose
  else body ++ suffix

/-- Association-list lookup with decidable key equality, modelling
`HashMap::get`. -/
def lookupA (l : List (String × String)) (k : String) : Option String :=
  match l with
  | [] => none
  | (k2, v) :: t => if k2 = k then some v else lookupA t k

/-- Update the value stored under an existing key, modelling assignment
through `HashMap::get_mut`. -/
def updateA (l : List (String × String)) (k : String) (v : String) :
    List (String × String) :=
  l.map fun p => if p.1 = k then (k, v) else p

/-- The template engine state: the `templates` name-to-body map and the
compiled handlebars registry `reg` (modelled by the registered source). -/
structure TemplateEngine where
  templates : List (String × String)
  reg : List (String × String)
deriving DecidableEq

/-- `TemplateEngine::add_to_template` (orca-core/src/prompt/mod.rs lines
88-101): mutate the stored body if the name is registered and re-register the
compiled template; do nothing for an unknown name. -/
def TemplateEngine.add_to_template (e : TemplateEngine) (name suffix : String) :
    TemplateEngine :=
  match lookupA e.templates name with
  | none => e
  | some body =>
    let nb : String := ⟨addToBody body.data suffix.data⟩
    ⟨updateA e.templates name nb, updateA e.reg name nb⟩

/-! ### orca-core/src/prompt/chat.rs : roles, messages and template items -/

/-- The `Role` enum. -/
inductive Role where
  | system
  | user
  | assistant
deriving DecidableEq, Repr

/-- The lowercase serialization of a role (`Display for Role` and
`serde(rename_all = "lowercase")`). -/
def roleChars : Role → List Char
  | .system => ['s', 'y', 's', 't', 'e', 'm']
  | .user => ['u', 's', 'e', 'r']
  | .assistant => ['a', 's', 's', 'i', 's', 't', 'a', 'n', 't']

/-- The `Message` struct: role, content and optional refusal. -/
structure Message where
  role : Role
  content : String
  refusal : Option String
deriving DecidableEq, Repr

/-- One item of a template body inside the chat envelope: a role block
`{{#r}}content{{/r}}` (whose inner text is literal) or literal text between
blocks.  This is the closed helper grammar of the engine. -/
inductive TItem where
  | block (r : Role) (content : String)
  | lit (s : String)
deriving DecidableEq

/-- The opening marker `{{#r}}` of a role block. -/
def openMark (r : Role) : List Char :=
  '{' :: '{' :: '#' :: (roleChars r ++ ['}', '}'])

/-- The closing marker `{{/r}}` of a role block. -/
def closeMark (r : Role) : List Char :=
  '{' :: '{' :: '/' :: (roleChars r ++ ['}', '}'])

/-- The template-source text of one item. -/
def itemStr : TItem → List Char
  | .block r c => openMark r ++ (c.data ++ closeMark r)
  | .lit s => s.data

/-- The template text between the envelope markers. -/
def innerStr (items : List TItem) : List Char :=
  (items.map itemStr).flatten

/-- A full chat-envelope template body. -/
def bodyStr (items : List TItem) : List Char :=
  chatOpen ++ innerStr items ++ chatClose

/-- View a role/content pair as a template item. -/
def blockItem (b : Role × String) : TItem := .block b.1 b.2

/-- The inner template text of a list of role blocks. -/
def blocksInner (bs : List (Role × String)) : List Char :=
  innerStr (bs.map blockItem)

/-- A chat-envelope body made only of role blocks. -/
def blocksBody (bs : List (Role × String)) : List Char :=
  bodyStr (bs.map blockItem)

/-- A content string is brace-free: the contents of role blocks contain no
brace characters (a brace inside a block would be handlebars syntax, not
literal content). -/
def braceFree (s : String) : Prop := ∀ c ∈ s.data, c ≠ '{' ∧ c ≠ '}'

instance (s : String) : Decidable (braceFree s) :=
  inferInstanceAs (Decidable (∀ c ∈ s.data, c ≠ '{' ∧ c ≠ '}'))

/-! ### Rendering (orca-core/src/prompt/chat.rs helpers) -/

/-- `remove_last_comma` (chat.rs lines 128-130):
`content.trim().trim_end_matches(',')`. -/
def remove_last_comma (content : List Char) : List Char :=
  dropEndWhile (fun c => c = ',') (rustTrim content)

/-- The field part of the JSON object a role helper emits. -/
def fieldChars (r : Role) (c : String) : List Char :=
  '"' :: 'r' :: 'o' :: 'l' :: 'e' :: '"' :: ':' :: ' ' :: '"' ::
    (roleChars r ++ '"' :: ',' :: ' ' :: '"' :: 'c' :: 'o' :: 'n' :: 't' ::
      'e' :: 'n' :: 't' :: '"' :: ':' :: ' ' :: '"' ::
      (cleanChars (rustTrim c.data) ++ ['"', '}']))

/-- The JSON object a role helper emits for one block (chat.rs lines 86-106):
`{"role": "<role>", "content": "<clean_string(content.trim())>"}`. -/
def objChars (r : Role) (c : String) : List Char :=
  '{' :: fieldChars r c

/-- What the handlebars engine emits for one template item: role helpers
write their JSON object followed by a comma; literal template text is copied
verbatim. -/
def renderItem : TItem → List Char
  | .block r c => objChars r c ++ [',']
  | .lit s => s.data

/-- The rendered inner content of the chat helper. -/
def renderInner (items : List TItem) : List Char :=
  (items.map renderItem).flatten

/-- Modelled from the spec: the handlebars render of a chat-envelope template
body over the closed helper grammar (handlebars itself is an external crate).
The chat helper (chat.rs lines 108-123) renders its inner template, applies
`remove_last_comma` and wraps the result in square brackets. -/
def renderBody (items : List TItem) : List Char :=
  '[' :: (remove_last_comma (renderInner items) ++ [']'])

/-! ### Parsing the rendered string back (serde_json model) -/

/-- JSON insignificant whitespace. -/
def jsonWs (c : Char) : Bool :=
  c = ' ' || c = '\t' || c = '\n' || c = '\r'

def skipWs (s : List Char) : List Char := s.dropWhile jsonWs

/-- Value of one hex digit. -/
def hexVal (c : Char) : Option Nat :=
  if '0' ≤ c ∧ c ≤ '9' then some (c.toNat - '0'.toNat)
  else if 'a' ≤ c ∧ c ≤ 'f' then some (c.toNat - 'a'.toNat + 10)
  else if 'A' ≤ c ∧ c ≤ 'F' then some (c.toNat - 'A'.toNat + 10)
  else none

/-- The single-character JSON escapes. -/
def escChar (e : Char) : Option Char :=
  if e = '"' then some '"'
  else if e = '\\' then some '\\'
  else if e = '/' then some '/'
  else if e = 'b' then some (Char.ofNat 0x08)
  else if e = 'f' then some (Char.ofNat 0x0C)
  else if e = 'n' then some '\n'
  else if e = 'r' then some '\r'
  else if e = 't' then some '\t'
  else none

/-- Decode one JSON escape sequence (the part after the backslash), returning
the decoded character and the remaining input. -/
def decodeEscape : List Char → Option (Char × List Char)
  | [] => none
  | e :: rest2 =>
    if e = 'u' then
      match rest2 with
      | h1 :: h2 :: h3 :: h4 :: rest3 =>
        match hexVal h1, hexVal h2, hexVal h3, hexVal h4 with
        | some v1, some v2, some v3, some v4 =>
          some (Char.ofNat (((v1 * 16 + v2) * 16 + v3) * 16 + v4), rest3)
        | _, _, _, _ => none
      | _ => none
    else
      match escChar e with
      | some ec => some (ec, rest2)
      | none => none

/-- Modelled from the spec: serde_json's JSON string-body parser (after the
opening quote), returning the decoded characters and the input after the
closing quote.  Raw control characters are invalid JSON; `\uXXXX` decodes a
code point (surrogate pairs are not modelled: the engine never emits them).
The fuel argument is instantiated with the input length. -/
def parseStringBodyF : Nat → List Char → Option (List Char × List Char)
  | 0, _ => none
  | _ + 1, [] => none
  | fuel + 1, c :: rest =>
    if c = '"' then some ([], rest)
    else if c = '\\' then
      match decodeEscape rest with
      | some p => (parseStringBodyF fuel p.2).map fun q => (p.1 :: q.1, q.2)
      | none => none
    else if c.toNat < 0x20 then none
    else (parseStringBodyF fuel rest).map fun p => (c :: p.1, p.2)

def parseString (s : List Char) : Option (List Char × List Char) :=
  parseStringBodyF s.length s

/-- The `Role` deserializer (`serde(rename_all = "lowercase")`): any other
string is an unknown-variant error. -/
def roleOfChars (cs : List Char) : Option Role :=
  if cs = ['s', 'y', 's', 't', 'e', 'm'] then some .system
  else if cs = ['u', 's', 'e', 'r'] then some .user
  else if cs = ['a', 's', 's', 'i', 's', 't', 'a', 'n', 't'] then some .assistant
  else none

/-- Assemble a parsed `Message`: `role` and `content` are required fields,
`refusal` defaults to `none` when absent. -/
def finishFields (ro : Option Role) (co : Option String)
    (re : Option (Option String)) (rest : List Char) :
    Option (Message × List Char) :=
  match ro, co with
  | some r, some c => some (⟨r, c, re.getD none⟩, rest)
  | _, _ => none

/-- Modelled from the spec: serde_json's field loop for the derived `Message`
deserializer.  Fields may come in any order; duplicate fields are an error;
`refusal` accepts a string or `null`.  The fuel bounds the number of fields
and is instantiated with the input length. -/
def parseFields : Nat → List Char → Option Role → Option String →
    Option (Option String) → Option (Message × List Char)
  | 0, _, _, _, _ => none
  | fuel + 1, s, ro, co, re =>
    match skipWs s with
    | '"' :: r1 =>
      match parseString r1 with
      | some (key, r2) =>
        match skipWs r2 with
        | ':' :: r3 =>
          if key = ['r', 'o', 'l', 'e'] then
            if ro.isSome then none
            else
              match skipWs r3 with
              | '"' :: r4 =>
                match parseString r4 with
                | some (rs, r5) =>
                  match roleOfChars rs with
                  | some rl =>
                    match skipWs r5 with
                    | ',' :: r6 => parseFields fuel r6 (some rl) co re
                    | '}' :: r6 => finishFields (some rl) co re r6
                    | _ => none
                  | none => none
                | none => none
              | _ => none
          else if key = ['c', 'o', 'n', 't', 'e', 'n', 't'] then
            if co.isSome then none
            else
              match skipWs r3 with
              | '"' :: r4 =>
                match parseString r4 with
                | some (cs, r5) =>
                  match skipWs r5 with
                  | ',' :: r6 => parseFields fuel r6 ro (some ⟨cs⟩) re
                  | '}' :: r6 => finishFields ro (some ⟨cs⟩) re r6
                  | _ => none
                | none => none
              | _ => none
          else if key = ['r', 'e', 'f', 'u', 's', 'a', 'l'] then
            if re.isSome then none
            else
              match skipWs r3 with
              | '"' :: r4 =>
                match parseString r4 with
                | some (cs, r5) =>
                  match skipWs r5 with
                  | ',' :: r6 => parseFields fuel r6 ro co (some (some ⟨cs⟩))
                  | '}' :: r6 => finishFields ro co (some (some ⟨cs⟩)) r6
                  | _ => none
                | none => none
              | 'n' :: 'u' :: 'l' :: 'l' :: r4 =>
                match skipWs r4 with
                | ',' :: r6 => parseFields fuel r6 ro co (some none)
                | '}' :: r6 => finishFields ro co (some none) r6
                | _ => none
              | _ => none
          else none
        | _ => none
      | none => none
    | _ => none

/-- Parse one JSON object as a `Message`. -/
def parseMessage (s : List Char) : Option (Message × List Char) :=
  match skipWs s with
  | '{' :: r => parseFields (r.length + 1) r none none none
  | _ => none

/-- Parse the comma-separated elements of a nonempty JSON array of messages,
up to and including the closing bracket. -/
def parseElems : Nat → List Char → Option (List Message × List Char)
  | 0, _ => none
  | fuel + 1, s =>
    match parseMessage s with
    | some (m, r) =>
      match skipWs r with
      | ',' :: r2 =>
        (parseElems fuel r2).map fun p => (m :: p.1, p.2)
      | ']' :: r2 => some ([m], r2)
      | _ => none
    | none => none

/-- Modelled from the spec: `serde_json::from_str::<ChatPrompt>` on the
rendered string (prompt/mod.rs lines 121-127): the whole input must be one
JSON array of message objects, up to trailing whitespace. -/
def parseChatPrompt (s : List Char) : Option (List Message) :=
  let s1 := skipWs s
  if s1.head? = some '[' then
    let r2 := skipWs s1.tail
    if r2.head? = some ']' then
      if (skipWs r2.tail).isEmpty then some [] else none
    else
      match parseElems (r2.length + 1) r2 with
      | some p => if (skipWs p.2).isEmpty then some p.1 else none
      | none => none
  else none

/-- The outcome of `TemplateEngine::render` (prompt/mod.rs lines 121-127): a
chat prompt when the rendered string parses as a message array, otherwise the
raw text. -/
inductive Rendered where
  | chat (ms : List Message)
  | text (s : String)
deriving DecidableEq

/-- Render a chat-envelope template body and dispatch on the parse result,
as `TemplateEngine::render` does. -/
def renderTemplate (items : List TItem) : Rendered :=
  match parseChatPrompt (renderBody items) with
  | some ms => .chat ms
  | none => .text ⟨renderBody items⟩

/-- The decoded content of a rendered role block: control characters are
dropped and `&` comes back as `&amp;` (the other escapes round-trip). -/
def parsedChars (d : List Char) : List Char :=
  ((d.filter keepChar).map fun c =>
    if c = '&' then ['&', 'a', 'm', 'p', ';'] else [c]).flatten

/-- The message a role block renders to. -/
def msgOfBlock (b : Role × String) : Message :=
  ⟨b.1, ⟨parsedChars (rustTrim b.2.data)⟩, none⟩

def msgList (bs : List (Role × String)) : List Message := bs.map msgOfBlock

/-- The comma-separated object list inside the rendered array. -/
def sepChars : List (Role × String) → List Char
  | [] => []
  | [b] => objChars b.1 b.2
  | b :: b2 :: t => objChars b.1 b.2 ++ ',' :: sepChars (b2 :: t)

/-! ### src/record/mod.rs : records -/

/-- `Content`: a single string or a vector of segments. -/
inductive Content where
  | str (s : String)
  | vec (ls : List String)
deriving DecidableEq

/-- `Content::to_string`: segments are joined by the separator line. -/
def Content.toString : Content → String
  | .str s => s
  | .vec ls => String.intercalate "\n******************\n" ls

/-- The `Record` struct. -/
structure Record where
  header : Option String
  content : Content
  metadata : Option String
deriving DecidableEq

/-- `Record::new`. -/
def Record.new (c : Content) : Record := ⟨none, c, none⟩

/-! ### serde_json serialization of chat prompts (Display for ChatPrompt) -/

/-- Lower-case hex digit, as serde_json prints control-character escapes. -/
def hexLowerDigit (n : Nat) : Char :=
  if n < 10 then Char.ofNat ('0'.toNat + n) else Char.ofNat ('a'.toNat + n - 10)

/-- Modelled from the spec: serde_json's string escaping (used by
`Display for ChatPrompt`, chat.rs lines 38-42): quote, backslash and the
control characters are escaped, everything else is copied. -/
def jsonEscChar (c : Char) : List Char :=
  if c = '"' then ['\\', '"']
  else if c = '\\' then ['\\', '\\']
  else if c = Char.ofNat 0x08 then ['\\', 'b']
  else if c = '\t' then ['\\', 't']
  else if c = '\n' then ['\\', 'n']
  else if c = Char.ofNat 0x0C then ['\\', 'f']
  else if c = '\r' then ['\\', 'r']
  else if c.toNat < 0x20 then
    ['\\', 'u', '0', '0', hexLowerDigit (c.toNat / 16),
      hexLowerDigit (c.toNat % 16)]
  else [c]

def jsonEscape (s : String) : List Char := (s.data.map jsonEscChar).flatten

/-- The compact serde_json serialization of one `Message` (fields in
declaration order; `refusal` is `null` when absent). -/
def serializeMessage (m : Message) : List Char :=
  '{' :: '"' :: 'r' :: 'o' :: 'l' :: 'e' :: '"' :: ':' :: '"' ::
    (roleChars m.role ++ '"' :: ',' :: '"' :: 'c' :: 'o' :: 'n' :: 't' ::
      'e' :: 'n' :: 't' :: '"' :: ':' :: '"' ::
      (jsonEscape m.content ++ '"' :: ',' :: '"' :: 'r' :: 'e' :: 'f' ::
        'u' :: 's' :: 'a' :: 'l' :: '"' :: ':' ::
        ((match m.refusal with
          | none => ['n', 'u', 'l', 'l']
          | some r => '"' :: (jsonEscape r ++ ['"'])) ++ ['}'])))

/-- Comma-separated message serializations. -/
def serializeList : List Message → List Char
  | [] => []
  | [m] => serializeMessage m
  | m :: m2 :: t => serializeMessage m ++ ',' :: serializeList (m2 :: t)

/-- `Display for ChatPrompt`: `serde_json::to_string` of the message
vector. -/
def chatToString (ms : List Message) : String :=
  ⟨'[' :: (serializeList ms ++ [']'])⟩

/-! ### orca-core/src/prompt/mod.rs : the Prompt trait objects -/

/-- The concrete types implementing `Prompt`: `String` (text prompts),
`ChatPrompt` and `Record`. -/
inductive PromptV where
  | text (s : String)
  | chat (ms : List Message)
  | record (r : Record)
deriving DecidableEq

/-- `Display` for prompts: a text prompt is itself; a chat prompt is its
serde_json serialization (chat.rs lines 38-42).  Modelled from the spec for
`Record` (its Display impl is not under src/): a record displays as its
content string. -/
def promptToString : PromptV → String
  | .text s => s
  | .chat ms => chatToString ms
  | .record r => r.content.toString

/-- The observable outcome of `Prompt::to_chat`: the `Result<ChatPrompt>`
value (`ok`/`err`) or a panic with its message. -/
inductive TCResult where
  | ok (ms : List Message)
  | err (msg : String)
  | panicked (msg : String)
deriving DecidableEq

/-- `Prompt::to_chat` (prompt/mod.rs lines 244-246 and 278-280): the default
trait implementation runs `unimplemented!("Unable to convert prompt to
ChatPrompt")`, which panics; only `ChatPrompt` overrides it, returning a
clone of itself.  `String` and `Record` inherit the default. -/
def toChat : PromptV → TCResult
  | .chat ms => .ok ms
  | .text _ => .panicked "Unable to convert prompt to ChatPrompt"
  | .record _ => .panicked "Unable to convert prompt to ChatPrompt"

/-- `Prompt::save` (prompt/mod.rs lines 236-238, 273-276 and 288-290):
`String` appends `data.to_string()`; `ChatPrompt` extends itself with
`data.to_chat().unwrap()` (which panics unless `data` is a chat prompt);
`Record` inherits the default `unimplemented!`.  `none` models a panic. -/
def save : PromptV → PromptV → Option PromptV
  | .text s, d => some (.text (s ++ promptToString d))
  | .chat ms, d =>
    match toChat d with
    | .ok ms2 => some (.chat (ms ++ ms2))
    | _ => none
  | .record _, _ => none

/-! ### orca-core/src/llm/openai.rs : retry backoff and the embedding driver -/

/-- `MAX_RETRIES` (openai.rs line 371). -/
def MAX_RETRIES : Nat := 5

/-- `INITIAL_BACKOFF` in milliseconds (openai.rs line 372). -/
def INITIAL_BACKOFF_MS : Nat := 100

/-- `MAX_BACKOFF` in milliseconds (openai.rs line 373). -/
def MAX_BACKOFF_MS : Nat := 10000

/-- The retry loop of `send_with_exponential_backoff` (openai.rs lines
375-393).  `outcome k` tells whether the k-th send call succeeds; `remaining`
is `MAX_RETRIES - attempts`; the result is (success, number of send calls
made, sleep durations in ms). -/
def sendLoop (outcome : Nat → Bool) : Nat → Nat → Nat → Bool × Nat × List Nat
  | remaining, backoffMs, k =>
    if outcome k then (true, k + 1, [])
    else
      match remaining with
      | r + 1 =>
        let res := sendLoop outcome r (min (backoffMs * 2) MAX_BACKOFF_MS) (k + 1)
        (res.1, res.2.1, backoffMs :: res.2.2)
      | 0 => (false, k + 1, [])

/-- `send_with_exponential_backoff`: start with zero attempts
(`remaining = MAX_RETRIES`) and the initial backoff. -/
def send_with_exponential_backoff (outcome : Nat → Bool) :
    Bool × Nat × List Nat :=
  sendLoop outcome MAX_RETRIES INITIAL_BACKOFF_MS 0

/-- The backoff sequence: starts at `b`, doubles after each failure, capped
at `MAX_BACKOFF_MS`. -/
def backoffSeq : Nat → Nat → List Nat
  | _, 0 => []
  | b, r + 1 => b :: backoffSeq (min (b * 2) MAX_BACKOFF_MS) r

/-- The receiver loop of `generate_embeddings` (openai.rs lines 458-467):
each successful `(i, result)` message writes its response into slot `i`; the
first error aborts the gather.  `α` is the response payload type, which the
driver never inspects. -/
def gatherLoop {α : Type} : List (Nat × Except String α) → List α →
    Except String (List α)
  | [], acc => .ok acc
  | (i, .ok r) :: rest, acc => gatherLoop rest (acc.set i r)
  | (i, .error e) :: _, _ =>
    .error ("Failed to generate embedding index " ++ toString i ++ ": " ++ e)

/-- `generate_embeddings` (openai.rs lines 424-470), abstracted over the
transport: the result vector starts as `n` default responses and the channel
messages `msgs` (in delivery order) fill the slots. -/
def generate_embeddings {α : Type} [Inhabited α] (n : Nat)
    (msgs : List (Nat × Except String α)) : Except String (List α) :=
  gatherLoop msgs (List.replicate n default)

/-! ### src/chains/mapreduce : the master's result collector -/

/-- `TaskType` (mapreduce task module). -/
inductive TaskType where
  | map
  | reduce
deriving DecidableEq

/-- `WorkerMsg`, with `chain_result` reduced to its content string (the only
part `Master::map` reads, via `msg.chain_result.content()`). -/
structure WorkerMsg where
  task_completed : TaskType
  chain_result : String
deriving DecidableEq

/-- State of the map-phase collector. -/
inductive CollectorState where
  | finished (group : Record)
  | waiting (acc : List String)
  | panicked
deriving DecidableEq

/-- The collector task spawned by `Master::map` (master.rs lines 40-50): it
receives worker messages from the results channel, pushes the content of
every `Map` result, panics if a `Reduce` message arrives, and builds the
group record only when `recv` returns `None`, i.e. when the results channel
has CLOSED (every sender clone has been dropped).  `events` is the list of
messages received so far and `closed` says whether the channel has closed
after them; while the channel is open the collector keeps waiting. -/
def mapCollector : List WorkerMsg → Bool → List String → CollectorState
  | [], false, acc => .waiting acc
  | [], true, acc => .finished (Record.new (.vec acc))
  | ⟨.map, r⟩ :: rest, closed, acc => mapCollector rest closed (acc ++ [r])
  | ⟨.reduce, _⟩ :: _, _, _ => .panicked

/-! ### orca-core/src/qdrant.rs : insert_many -/

/-- A qdrant point: numeric id, vector and payload. -/
structure PointStruct (V Q : Type) where
  id : Nat
  vector : V
  payload : Q
deriving DecidableEq

/-- The `enumerate().map(...).collect::<Result<_>>()` of `insert_many`:
convert each payload, numbering points from `i`; a conversion failure aborts
the whole call with the with-context message. -/
def collectPoints {V P Q : Type} (toPayload : P → Except String Q) :
    Nat → List (V × P) → Except String (List (PointStruct V Q))
  | _, [] => .ok []
  | i, (v, p) :: t =>
    match toPayload p with
    | .ok q =>
      match collectPoints toPayload (i + 1) t with
      | .ok ps => .ok (⟨i, v, q⟩ :: ps)
      | .error e => .error e
    | .error e =>
      .error ("Failed to convert payload at index " ++ toString i ++ ": " ++ e)

/-- `Qdrant::insert_many` (qdrant.rs lines 248-272): zips the vectors with
the payloads (`Iterator::zip` silently truncates to the shorter list -- there
is no length check), numbers the points contiguously from 0, and upserts
them.  The returned list is what is passed to `upsert_points_blocking`. -/
def insert_many {V P Q : Type} (toPayload : P → Except String Q)
    (vectors : List V) (payloads : List P) :
    Except String (List (PointStruct V Q)) :=
  collectPoints toPayload 0 (vectors.zip payloads)

/-! ### src/record/mod.rs : Record::split -/

/-- Modelled from the spec: the external `text_splitter` crate with trimming
enabled, as the spec describes it ("a text splitter that trims whitespace"):
it greedily produces chunks of at most `max maxChars 1` characters (always
making progress even when the limit is 0), trims each chunk and drops chunks
that trim to nothing.  The fuel is instantiated with the input length. -/
def splitterChunksF : Nat → List Char → Nat → List (List Char)
  | 0, _, _ => []
  | _ + 1, [], _ => []
  | fuel + 1, c :: s, maxChars =>
    let k := max maxChars 1
    let chunk := rustTrim ((c :: s).take k)
    let rest := (c :: s).drop k
    if chunk = [] then splitterChunksF fuel rest maxChars
    else chunk :: splitterChunksF fuel rest maxChars

def splitterChunks (s : List Char) (maxChars : Nat) : List (List Char) :=
  splitterChunksF s.length s maxChars

/-- `Record::split` (src/record/mod.rs lines 83-104): the chunk size is the
byte length of the whole content string divided by the requested chunk count
(`self.content.to_string().len() / chunks`; Rust panics on `chunks = 0`,
which is outside this model); a `String` content is split directly, and each
segment of a `Vec` content is split separately with the same chunk size and
the results are flattened. -/
def Record.split (r : Record) (chunks : Nat) : List Record :=
  let maxChars := (Content.toString r.content).utf8ByteSize / chunks
  match r.content with
  | .str s =>
    (splitterChunks s.data maxChars).map fun cs => Record.new (.str ⟨cs⟩)
  | .vec v =>
    (v.map fun s =>
      (splitterChunks s.data maxChars).map fun cs =>
        Record.new (.str ⟨cs⟩)).flatten

end Orca

namespace Orca

/-! ### Theorems for claim C1 -/

theorem cleanChars_append (s t : List Char) :
    cleanChars (s ++ t) = cleanChars s ++ cleanChars t := by
  simp [cleanChars, List.filter_append, List.map_append]

/-- C1 counterexample: the claim says the engine "turns ... newline ... into
their standard JSON escapes (`\n` ...)".  In the code the filter
`c > '\u{1F}'` runs before the escape map, so a newline is dropped, not
escaped: `clean_string "\n"` is the empty string, not `"\\n"`. -/
theorem c1_counterexample :
    clean_string "\n" = "" ∧ clean_string "\n" ≠ "\\n" := by
  constructor <;> decide

/-- C1 (amended): every character below 0x20 (including backspace, form-feed,
newline, carriage-return and tab) is dropped; `"`, `\`, `/` become their
standard JSON escapes; `{`, `}`, `[`, `]`, `,`, `:` become Unicode
code-point escapes; `&` becomes `&amp;`; every other character is unchanged;
the escaping acts character-wise (homomorphically), and the concrete content
`A "quoted" {x} \ path` renders as `A \"quoted\" {x} \\ path`. -/
theorem c1_clean_string_amended (c : Char) (s t : List Char) :
    (c.toNat ≤ 0x1F → cleanChars [c] = [])
    ∧ cleanChars ['"'] = ['\\', '"']
    ∧ cleanChars ['\\'] = ['\\', '\\']
    ∧ cleanChars ['/'] = ['\\', '/']
    ∧ cleanChars ['{'] = ['\\', 'u', '0', '0', '7', 'B']
    ∧ cleanChars ['}'] = ['\\', 'u', '0', '0', '7', 'D']
    ∧ cleanChars ['['] = ['\\', 'u', '0', '0', '5', 'B']
    ∧ cleanChars [']'] = ['\\', 'u', '0', '0', '5', 'D']
    ∧ cleanChars [','] = ['\\', 'u', '0', '0', '2', 'C']
    ∧ cleanChars [':'] = ['\\', 'u', '0', '0', '3', 'A']
    ∧ cleanChars ['&'] = ['&', 'a', 'm', 'p', ';']
    ∧ (0x1F < c.toNat → c ≠ '"' → c ≠ '\\' → c ≠ '/' → c ≠ '{' → c ≠ '}' →
        c ≠ '[' → c ≠ ']' → c ≠ ',' → c ≠ ':' → c ≠ '&' → cleanChars [c] = [c])
    ∧ cleanChars (s ++ t) = cleanChars s ++ cleanChars t
    ∧ clean_string "A \"quoted\" \x7bx\x7d \\ path"
        = "A \\\"quoted\\\" \\u007Bx\\u007D \\\\ path" := by
  refine ⟨?_, by decide, by decide, by decide, by decide, by decide, by decide,
      by decide, by decide, by decide, by decide, ?_, cleanChars_append s t, by decide⟩
  · intro h
    have hk : keepChar c = false := by
      simp [keepChar]; omega
    simp [cleanChars, List.filter, hk]
  · intro h h1 h2 h3 h4 h5 h6 h7 h8 h9 h10
    have hk : keepChar c = true := by
      simp [keepChar]; omega
    have h0 : c ≠ Char.ofNat 0x08 := by
      intro he; subst he; simp at h
    have hn : c ≠ '\n' := by
      intro he; subst he; simp at h
    have hr : c ≠ '\r' := by
      intro he; subst he; simp at h
    have ht : c ≠ '\t' := by
      intro he; subst he; simp at h
    have hf : c ≠ Char.ofNat 0x0C := by
      intro he; subst he; simp at h
    simp [cleanChars, List.filter, hk, cleanChar, h1, h2, h3, h4, h5, h6, h7,
      h8, h9, h10, h0, hn, hr, ht, hf]

/-- Witness for `c1_clean_string_amended`: a tab is dropped and the letter Z
passes through unchanged. -/
theorem c1_clean_string_amended_witness :
    cleanChars ['\t'] = [] ∧ cleanChars ['Z'] = ['Z'] :=
  ⟨(c1_clean_string_amended '\t' [] []).1 (by decide),
   ((c1_clean_string_amended 'Z' [] []).2.2.2.2.2.2.2.2.2.2.2.1)
     (by decide) (by decide) (by decide) (by decide) (by decide) (by decide)
     (by decide) (by decide) (by decide) (by decide) (by decide)⟩

/-! ### Theorems for claim C10 -/

/-- C10: `add_to_template` on a name under which no template is registered
returns normally and leaves the engine completely unchanged. -/
theorem c10_add_to_template_unknown_name (e : TemplateEngine)
    (name suffix : String) (h : lookupA e.templates name = none) :
    e.add_to_template name suffix = e := by
  unfold TemplateEngine.add_to_template
  rw [h]

/-- Witness for `c10_add_to_template_unknown_name` at the empty engine. -/
theorem c10_add_to_template_unknown_name_witness :
    TemplateEngine.add_to_template ⟨[], []⟩ "missing" "\x7b\x7b#user\x7d\x7dx\x7b\x7b/user\x7d\x7d"
      = (⟨[], []⟩ : TemplateEngine) :=
  c10_add_to_template_unknown_name ⟨[], []⟩ "missing" "\x7b\x7b#user\x7d\x7dx\x7b\x7b/user\x7d\x7d" rfl

/-! ### Substring lemmas for the chat envelope -/

theorem containsSub_cons (c : Char) (t pat : List Char) :
    containsSub (c :: t) pat = (pat.isPrefixOf (c :: t) || containsSub t pat) := by
  rw [containsSub]

theorem containsSub_of_isPrefixOf {s pat : List Char}
    (h : pat.isPrefixOf s = true) : containsSub s pat = true := by
  cases s <;> rw [containsSub] <;> simp [h]

theorem containsSub_append_right {b pat : List Char} (a : List Char)
    (h : containsSub b pat = true) : containsSub (a ++ b) pat = true := by
  induction a with
  | nil => simpa using h
  | cons c t ih => rw [List.cons_append, containsSub_cons, ih]; simp

theorem containsSub_of_suffix_prefix {s v pat : List Char}
    (hv : v <:+ s) (hp : pat.isPrefixOf v = true) : containsSub s pat = true := by
  obtain ⟨a, rfl⟩ := hv
  exact containsSub_append_right a (containsSub_of_isPrefixOf hp)

/-- Walk `containsSub` through a block `u` none of whose nonempty suffixes
starts a match. -/
theorem containsSub_walk {u : List Char} (rest pat : List Char)
    (h : ∀ v, v <:+ u → v ≠ [] → pat.isPrefixOf (v ++ rest) = false) :
    containsSub (u ++ rest) pat = containsSub rest pat := by
  induction u with
  | nil => simp
  | cons c t ih =>
    have h0 := h (c :: t) (List.suffix_refl _) (by simp)
    rw [List.cons_append] at h0
    rw [List.cons_append, containsSub_cons, h0]
    simp only [Bool.false_or]
    exact ih fun v hv hne => h v (hv.trans (List.suffix_cons c t)) hne

theorem replaceAll_nil (pat rep : List Char) : replaceAll [] pat rep = [] := by
  rw [replaceAll]
  split
  · rename_i h
    have := h.1
    simp [List.isPrefixOf] at this
    cases this
    exact absurd rfl h.2
  · rfl

theorem replaceAll_cons_no_pre {c : Char} {t pat : List Char}
    (rep : List Char) (h : pat.isPrefixOf (c :: t) = false) :
    replaceAll (c :: t) pat rep = c :: replaceAll t pat rep := by
  rw [replaceAll]
  split
  · rename_i hcond
    rw [h] at hcond
    exact absurd hcond.1 (by simp)
  · rfl

/-- Walk `replaceAll` through a block `u` none of whose nonempty suffixes
starts a match. -/
theorem replaceAll_walk {u : List Char} (rest pat rep : List Char)
    (h : ∀ v, v <:+ u → v ≠ [] → pat.isPrefixOf (v ++ rest) = false) :
    replaceAll (u ++ rest) pat rep = u ++ replaceAll rest pat rep := by
  induction u with
  | nil => simp
  | cons c t ih =>
    have h0 := h (c :: t) (List.suffix_refl _) (by simp)
    rw [List.cons_append] at h0
    rw [List.cons_append, replaceAll_cons_no_pre rep h0]
    rw [ih fun v hv hne => h v (hv.trans (List.suffix_cons c t)) hne]
    rfl

theorem replaceAll_no_occ {s pat : List Char} (rep : List Char)
    (h : containsSub s pat = false) : replaceAll s pat rep = s := by
  induction s with
  | nil => exact replaceAll_nil pat rep
  | cons c t ih =>
    rw [containsSub_cons] at h
    simp only [Bool.or_eq_false_iff] at h
    rw [replaceAll_cons_no_pre rep h.1, ih h.2]

/-- No nonempty suffix of an opening role marker starts an occurrence of an
envelope marker, whatever text follows. -/
theorem openMark_no_match (r : Role) (rest pat : List Char)
    (hpat : pat = chatOpen ∨ pat = chatClose) :
    ∀ v, v <:+ openMark r → v ≠ [] → pat.isPrefixOf (v ++ rest) = false := by
  intro v hv hne
  rw [← List.mem_tails] at hv
  rcases hpat with rfl | rfl <;> cases r <;>
    simp only [openMark, roleChars] at hv <;> fin_cases hv <;>
    first
      | exact absurd rfl hne
      | rfl

/-- No nonempty suffix of a closing role marker starts an occurrence of an
envelope marker, whatever text follows. -/
theorem closeMark_no_match (r : Role) (rest pat : List Char)
    (hpat : pat = chatOpen ∨ pat = chatClose) :
    ∀ v, v <:+ closeMark r → v ≠ [] → pat.isPrefixOf (v ++ rest) = false := by
  intro v hv hne
  rw [← List.mem_tails] at hv
  rcases hpat with rfl | rfl <;> cases r <;>
    simp only [closeMark, roleChars] at hv <;> fin_cases hv <;>
    first
      | exact absurd rfl hne
      | rfl

/-- No suffix of brace-free content starts an occurrence of an envelope
marker. -/
theorem content_no_match {u : List Char} (rest pat : List Char)
    (hpat : pat = chatOpen ∨ pat = chatClose) (hu : ∀ c ∈ u, c ≠ '{') :
    ∀ v, v <:+ u → v ≠ [] → pat.isPrefixOf (v ++ rest) = false := by
  intro v hv hne
  match v, hne with
  | c :: w, _ =>
    have hc : c ≠ '{' := hu c (hv.subset (List.mem_cons_self c w))
    have hb : ('{' == c) = false := by
      simp [hc.symm]
    rcases hpat with rfl | rfl <;>
      simp [chatOpen, chatClose, List.isPrefixOf, hb]

/-- The inner text of a sequence of role blocks with brace-free contents
contains no occurrence of either envelope marker. -/
theorem blocksInner_no_env (bs : List (Role × String)) (pat : List Char)
    (hpat : pat = chatOpen ∨ pat = chatClose)
    (hfree : ∀ b ∈ bs, braceFree b.2) :
    containsSub (blocksInner bs) pat = false := by
  induction bs with
  | nil =>
    rw [blocksInner, List.map_nil, innerStr, List.map_nil, List.flatten_nil,
      containsSub]
    rcases hpat with rfl | rfl <;> rfl
  | cons b t ih =>
    have hb : blocksInner (b :: t)
        = openMark b.1 ++ (b.2.data ++ (closeMark b.1 ++ blocksInner t)) := by
      simp [blocksInner, innerStr, blockItem, itemStr, List.append_assoc]
    rw [hb]
    rw [containsSub_walk _ pat (openMark_no_match b.1 _ pat hpat)]
    rw [containsSub_walk _ pat
      (content_no_match _ pat hpat fun c hc => (hfree b (by simp) c hc).1)]
    rw [containsSub_walk _ pat (closeMark_no_match b.1 _ pat hpat)]
    exact ih fun b2 hb2 => hfree b2 (by simp [hb2])

/-- The inner text of a nonempty sequence of role blocks ends with the two
closing braces of its last marker. -/
theorem blocksInner_ends (bs : List (Role × String)) (hne : bs ≠ []) :
    ∃ a, blocksInner bs = a ++ ['}', '}'] := by
  induction bs with
  | nil => exact absurd rfl hne
  | cons b t ih =>
    have hb : blocksInner (b :: t)
        = openMark b.1 ++ (b.2.data ++ (closeMark b.1 ++ blocksInner t)) := by
      simp [blocksInner, innerStr, blockItem, itemStr, List.append_assoc]
    cases t with
    | nil =>
      refine ⟨openMark b.1 ++ (b.2.data ++ ('{' :: '{' :: '/' :: roleChars b.1)), ?_⟩
      rw [hb]
      simp [closeMark, blocksInner, innerStr, List.append_assoc]
    | cons b2 t2 =>
      obtain ⟨a, ha⟩ := ih (by simp)
      refine ⟨openMark b.1 ++ (b.2.data ++ (closeMark b.1 ++ a)), ?_⟩
      rw [hb, ha]
      simp [List.append_assoc]

theorem suffix_singleton {v a : List Char} {x y : Char}
    (hv : v <:+ a ++ [x, y]) (h1 : v.length = 1) : v = [y] := by
  have hr : v.reverse <+: (a ++ [x, y]).reverse := List.reverse_prefix.mpr hv
  rw [List.reverse_append] at hr
  have hlen : v.reverse.length = 1 := by simpa using h1
  obtain ⟨c, hc⟩ := List.length_eq_one.mp hlen
  rw [hc] at hr
  simp only [List.reverse_cons, List.reverse_nil, List.nil_append,
    List.cons_append, List.cons_prefix_cons] at hr
  obtain ⟨rfl, -⟩ := hr
  have := congrArg List.reverse hc
  simpa using this

theorem suffix_ends_pair {v a : List Char} {x y : Char}
    (hv : v <:+ a ++ [x, y]) (h2 : 2 ≤ v.length) : ∃ b, v = b ++ [x, y] := by
  have hr : v.reverse <+: (a ++ [x, y]).reverse := List.reverse_prefix.mpr hv
  rw [List.reverse_append] at hr
  have hlen : 2 ≤ v.reverse.length := by simpa using h2
  obtain ⟨c1, l1, hc1⟩ :=
    List.exists_cons_of_ne_nil (l := v.reverse)
      (by intro h0; rw [h0] at hlen; simp at hlen)
  obtain ⟨c2, w, hc2⟩ :=
    List.exists_cons_of_ne_nil (l := l1)
      (by intro h0; rw [hc1, h0] at hlen; simp at hlen)
  rw [hc1, hc2] at hr
  simp only [List.reverse_cons, List.reverse_nil, List.nil_append,
    List.cons_append, List.cons_prefix_cons] at hr
  obtain ⟨rfl, rfl, -⟩ := hr
  refine ⟨w.reverse, ?_⟩
  have hrev := congrArg List.reverse hc1
  rw [hc2] at hrev
  simpa [List.append_assoc] using hrev

/-- Central overlap analysis: inside text that contains no envelope marker and
ends with two closing braces, no nonempty suffix can start an occurrence of an
envelope marker, whatever text follows.  (A short suffix cannot be an initial
segment of a marker because markers do not end in two braces, and a long
suffix would contain the marker outright.) -/
theorem inner_suffix_no_match {inner : List Char} {pat : List Char}
    (hpat : pat = chatOpen ∨ pat = chatClose)
    (hno : containsSub inner pat = false)
    (hend : inner = [] ∨ ∃ a, inner = a ++ ['}', '}']) :
    ∀ v q, v <:+ inner → v ≠ [] → pat.isPrefixOf (v ++ q) = false := by
  intro v q hv hne
  cases hb : pat.isPrefixOf (v ++ q) with
  | false => rfl
  | true =>
    exfalso
    have hpre : pat <+: v ++ q := List.isPrefixOf_iff_prefix.mp hb
    have hplen : pat.length = 9 := by rcases hpat with rfl | rfl <;> rfl
    rcases hend with rfl | ⟨a, rfl⟩
    · exact hne (List.suffix_nil.mp hv)
    obtain ⟨t, ht⟩ := hpre
    rcases Nat.lt_or_ge v.length 9 with hk | hk
    · -- short suffix: v is an initial segment of the marker
      have hv_take : v = pat.take v.length := by
        have h1 : (pat ++ t).take v.length = pat.take v.length :=
          List.take_append_of_le_length (by omega)
        have h2 : (v ++ q).take v.length = v := List.take_left v q
        rw [ht] at h1
        rw [h2] at h1
        exact h1
      have hvpos : 1 ≤ v.length := by
        cases v with
        | nil => exact absurd rfl hne
        | cons c w => simp
      rcases Nat.lt_or_ge v.length 2 with h1 | h2
      · have hv1 : v.length = 1 := by omega
        rw [hv1] at hv_take
        rw [suffix_singleton hv hv1] at hv_take
        rcases hpat with rfl | rfl <;> simp [chatOpen, chatClose] at hv_take
      · obtain ⟨b, hvb⟩ := suffix_ends_pair hv h2
        have hvals : v.length = 2 ∨ v.length = 3 ∨ v.length = 4 ∨
            v.length = 5 ∨ v.length = 6 ∨ v.length = 7 ∨ v.length = 8 := by
          omega
        have hrev : v.reverse = '}' :: '}' :: b.reverse := by
          rw [hvb]; simp
        rcases hvals with hl | hl | hl | hl | hl | hl | hl <;>
          rw [hl] at hv_take <;> rcases hpat with rfl | rfl <;>
          simp [chatOpen, chatClose] at hv_take <;>
          rw [hv_take] at hrev <;> simp at hrev
    · -- long suffix: the whole marker sits inside v, hence inside inner
      have hv_take : pat = v.take 9 := by
        have h1 : (pat ++ t).take 9 = pat := by
          rw [List.take_append_of_le_length (le_of_eq hplen.symm)]
          rw [← hplen, List.take_length]
        have h2 : (v ++ q).take 9 = v.take 9 :=
          List.take_append_of_le_length hk
        rw [ht, h2] at h1
        exact h1.symm
      have hpv : pat.isPrefixOf v = true := by
        rw [List.isPrefixOf_iff_prefix, hv_take]
        exact List.take_prefix 9 v
      have := containsSub_of_suffix_prefix hv hpv
      rw [hno] at this
      exact absurd this (by simp)

theorem replaceAll_head_match (pat s rep : List Char) (hne : pat ≠ []) :
    replaceAll (pat ++ s) pat rep = rep ++ replaceAll s pat rep := by
  rw [replaceAll]
  split
  · rw [List.drop_left]
  · rename_i hcond
    exact absurd ⟨List.isPrefixOf_iff_prefix.mpr (List.prefix_append pat s), hne⟩
      hcond

theorem blocksInner_append (xs ys : List (Role × String)) :
    blocksInner (xs ++ ys) = blocksInner xs ++ blocksInner ys := by
  simp [blocksInner, innerStr]

theorem blocksInner_end_shape (xs : List (Role × String)) :
    blocksInner xs = [] ∨ ∃ a, blocksInner xs = a ++ ['}', '}'] := by
  rcases eq_or_ne xs [] with rfl | hne
  · left; simp [blocksInner, innerStr]
  · right; exact blocksInner_ends xs hne

/-- The central string-level fact behind claim C2: on a chat-envelope body of
role blocks with brace-free contents, `add_to_template`'s body transformation
splices any suffix exactly before the closing marker. -/
theorem addToBody_blocks_any (xs : List (Role × String))
    (hxs : ∀ b ∈ xs, braceFree b.2) (suffix : List Char) :
    addToBody (blocksBody xs) suffix
      = chatOpen ++ (blocksInner xs ++ suffix) ++ chatClose := by
  have hbody : blocksBody xs = chatOpen ++ (blocksInner xs ++ chatClose) := by
    simp [blocksBody, bodyStr, blocksInner, List.append_assoc]
  have hno_open : containsSub (blocksInner xs) chatOpen = false :=
    blocksInner_no_env xs chatOpen (Or.inl rfl) hxs
  have hno_close : containsSub (blocksInner xs) chatClose = false :=
    blocksInner_no_env xs chatClose (Or.inr rfl) hxs
  have hend := blocksInner_end_shape xs
  have hguard_open : containsSub (blocksBody xs) chatOpen = true := by
    rw [hbody]
    exact containsSub_of_isPrefixOf
      (List.isPrefixOf_iff_prefix.mpr (List.prefix_append _ _))
  have hguard_close : containsSub (blocksBody xs) chatClose = true := by
    rw [hbody, ← List.append_assoc]
    exact containsSub_append_right _
      (containsSub_of_isPrefixOf (by simp [List.isPrefixOf_iff_prefix]))
  have hstrip1 : replaceAll (blocksBody xs) chatOpen [] =
      blocksInner xs ++ chatClose := by
    rw [hbody, replaceAll_head_match _ _ _ (by simp [chatOpen])]
    rw [replaceAll_walk chatClose chatOpen []
      (fun v hv hne => inner_suffix_no_match (Or.inl rfl) hno_open hend v
        chatClose hv hne)]
    rw [replaceAll_no_occ [] (by decide)]
    simp
  have hstrip2 : replaceAll (blocksInner xs ++ chatClose) chatClose [] =
      blocksInner xs := by
    rw [replaceAll_walk chatClose chatClose []
      (fun v hv hne => inner_suffix_no_match (Or.inr rfl) hno_close hend v
        chatClose hv hne)]
    have : replaceAll chatClose chatClose [] = [] := by
      have h0 := replaceAll_head_match chatClose [] [] (by simp [chatClose])
      rw [List.append_nil] at h0
      rw [h0, replaceAll_nil]
      rfl
    rw [this, List.append_nil]
  rw [addToBody, hguard_open, hguard_close]
  simp only [Bool.and_self, if_true]
  rw [hstrip1, hstrip2]

/-- Splicing a role-block suffix yields exactly the concatenated body. -/
theorem addToBody_blocks (xs ys : List (Role × String))
    (hxs : ∀ b ∈ xs, braceFree b.2) :
    addToBody (blocksBody xs) (blocksInner ys) = blocksBody (xs ++ ys) := by
  rw [addToBody_blocks_any xs hxs, ← blocksInner_append]
  simp [blocksBody, bodyStr, blocksInner, List.append_assoc]

/-! ### Correctness of the rendered-chat parser on the emitted grammar -/

theorem cleanChars_cons (c : Char) (d : List Char) :
    cleanChars (c :: d)
      = (if keepChar c then cleanChar c else []) ++ cleanChars d := by
  by_cases hk : keepChar c <;> simp [cleanChars, List.filter_cons, hk]

theorem parsedChars_cons (c : Char) (d : List Char) :
    parsedChars (c :: d)
      = (if keepChar c then
          if c = '&' then ['&', 'a', 'm', 'p', ';'] else [c]
        else []) ++ parsedChars d := by
  by_cases hk : keepChar c <;> simp [parsedChars, List.filter_cons, hk]

theorem parseStringBodyF_role (r : Role) (fuel : Nat) (rest : List Char)
    (hf : (roleChars r).length + 1 ≤ fuel) :
    parseStringBodyF fuel (roleChars r ++ '"' :: rest)
      = some (roleChars r, rest) := by
  cases r
  · obtain ⟨k, rfl⟩ : ∃ k, fuel = k + 7 := ⟨fuel - 7, by simp [roleChars] at hf; omega⟩
    simp [roleChars, parseStringBodyF]
  · obtain ⟨k, rfl⟩ : ∃ k, fuel = k + 5 := ⟨fuel - 5, by simp [roleChars] at hf; omega⟩
    simp [roleChars, parseStringBodyF]
  · obtain ⟨k, rfl⟩ : ∃ k, fuel = k + 10 := ⟨fuel - 10, by simp [roleChars] at hf; omega⟩
    simp [roleChars, parseStringBodyF]

theorem parseString_role (r : Role) (rest : List Char) :
    parseString (roleChars r ++ '"' :: rest) = some (roleChars r, rest) := by
  apply parseStringBodyF_role
  simp

theorem decodeEscape_quote (t : List Char) :
    decodeEscape ('"' :: t) = some ('"', t) := rfl

theorem decodeEscape_backslash (t : List Char) :
    decodeEscape ('\\' :: t) = some ('\\', t) := rfl

theorem decodeEscape_slash (t : List Char) :
    decodeEscape ('/' :: t) = some ('/', t) := rfl

theorem decodeEscape_b (t : List Char) :
    decodeEscape ('b' :: t) = some (Char.ofNat 0x08, t) := rfl

theorem decodeEscape_f (t : List Char) :
    decodeEscape ('f' :: t) = some (Char.ofNat 0x0C, t) := rfl

theorem decodeEscape_n (t : List Char) :
    decodeEscape ('n' :: t) = some ('\n', t) := rfl

theorem decodeEscape_r (t : List Char) :
    decodeEscape ('r' :: t) = some ('\r', t) := rfl

theorem decodeEscape_t (t : List Char) :
    decodeEscape ('t' :: t) = some ('\t', t) := rfl

theorem decodeEscape_u7B (t : List Char) :
    decodeEscape ('u' :: '0' :: '0' :: '7' :: 'B' :: t) = some ('{', t) := rfl

theorem decodeEscape_u7D (t : List Char) :
    decodeEscape ('u' :: '0' :: '0' :: '7' :: 'D' :: t) = some ('}', t) := rfl

theorem decodeEscape_u5B (t : List Char) :
    decodeEscape ('u' :: '0' :: '0' :: '5' :: 'B' :: t) = some ('[', t) := rfl

theorem decodeEscape_u5D (t : List Char) :
    decodeEscape ('u' :: '0' :: '0' :: '5' :: 'D' :: t) = some (']', t) := rfl

theorem decodeEscape_u2C (t : List Char) :
    decodeEscape ('u' :: '0' :: '0' :: '2' :: 'C' :: t) = some (',', t) := rfl

theorem decodeEscape_u3A (t : List Char) :
    decodeEscape ('u' :: '0' :: '0' :: '3' :: 'A' :: t) = some (':', t) := rfl

theorem psb_quote_step (fuel : Nat) (rest : List Char) :
    parseStringBodyF (fuel + 1) ('"' :: rest) = some ([], rest) := by
  rw [parseStringBodyF]
  simp

theorem psb_esc_step (fuel : Nat) {t t2 : List Char} {ec : Char}
    (hdec : decodeEscape t = some (ec, t2)) :
    parseStringBodyF (fuel + 1) ('\\' :: t)
      = (parseStringBodyF fuel t2).map fun q => (ec :: q.1, q.2) := by
  rw [parseStringBodyF]
  rw [if_neg (by decide), if_pos rfl, hdec]

theorem psb_plain_step (fuel : Nat) {c : Char} (rest : List Char)
    (h1 : ¬c = '"') (h2 : ¬c = '\\') (h3 : ¬(c.toNat < 0x20)) :
    parseStringBodyF (fuel + 1) (c :: rest)
      = (parseStringBodyF fuel rest).map fun p => (c :: p.1, p.2) := by
  rw [parseStringBodyF]
  rw [if_neg h1, if_neg h2, if_neg h3]

theorem char_classify (c : Char) :
    c = '"' ∨ c = '\\' ∨ c = '/' ∨ c = Char.ofNat 0x08 ∨ c = Char.ofNat 0x0C ∨ c = '\n' ∨ c = '\r' ∨ c = '\t' ∨ c = '{' ∨ c = '}' ∨ c = '[' ∨ c = ']' ∨ c = ',' ∨ c = ':' ∨ c = '&' ∨
      (c ≠ '"' ∧ c ≠ '\\' ∧ c ≠ '/' ∧ c ≠ Char.ofNat 0x08 ∧ c ≠ Char.ofNat 0x0C ∧ c ≠ '\n' ∧ c ≠ '\r' ∧ c ≠ '\t' ∧ c ≠ '{' ∧ c ≠ '}' ∧ c ≠ '[' ∧ c ≠ ']' ∧ c ≠ ',' ∧ c ≠ ':' ∧ c ≠ '&') := by
  tauto

theorem parseStringBodyF_clean (d : List Char) :
    ∀ (fuel : Nat) (rest : List Char),
      (cleanChars d).length + 1 ≤ fuel →
      parseStringBodyF fuel (cleanChars d ++ '"' :: rest)
        = some (parsedChars d, rest) := by
  induction d with
  | nil =>
    intro fuel rest hf
    obtain ⟨k, rfl⟩ : ∃ k, fuel = k + 1 := ⟨fuel - 1, by omega⟩
    simp [cleanChars, parsedChars, parseStringBodyF]
  | cons c d ih =>
    intro fuel rest hf
    rw [cleanChars_cons] at hf ⊢
    rw [parsedChars_cons]
    by_cases hk : keepChar c
    all_goals simp only [hk, if_true, if_false, List.nil_append] at hf ⊢
    case neg => exact ih fuel rest hf
    have hnotlt : ¬(c.toNat < 0x20) := by
      simp [keepChar] at hk; omega
    rw [List.length_append] at hf
    rcases char_classify c with rfl|rfl|rfl|rfl|rfl|rfl|rfl|rfl|rfl|rfl|rfl|rfl|rfl|rfl|rfl|hplain
    · rw [show cleanChar '"' = ['\\', '"'] from rfl] at hf ⊢
      obtain ⟨k, rfl⟩ : ∃ k, fuel = k + 1 := ⟨fuel - 1, by omega⟩
      simp only [List.cons_append, List.nil_append]
      rw [psb_esc_step k (decodeEscape_quote _)]
      rw [ih k rest (by simp at hf; omega)]
      rw [if_neg (by decide)]
      rfl
    · rw [show cleanChar '\\' = ['\\', '\\'] from rfl] at hf ⊢
      obtain ⟨k, rfl⟩ : ∃ k, fuel = k + 1 := ⟨fuel - 1, by omega⟩
      simp only [List.cons_append, List.nil_append]
      rw [psb_esc_step k (decodeEscape_backslash _)]
      rw [ih k rest (by simp at hf; omega)]
      rw [if_neg (by decide)]
      rfl
    · rw [show cleanChar '/' = ['\\', '/'] from rfl] at hf ⊢
      obtain ⟨k, rfl⟩ : ∃ k, fuel = k + 1 := ⟨fuel - 1, by omega⟩
      simp only [List.cons_append, List.nil_append]
      rw [psb_esc_step k (decodeEscape_slash _)]
      rw [ih k rest (by simp at hf; omega)]
      rw [if_neg (by decide)]
      rfl
    · rw [show cleanChar (Char.ofNat 0x08) = ['\\', 'b'] from rfl] at hf ⊢
      obtain ⟨k, rfl⟩ : ∃ k, fuel = k + 1 := ⟨fuel - 1, by omega⟩
      simp only [List.cons_append, List.nil_append]
      rw [psb_esc_step k (decodeEscape_b _)]
      rw [ih k rest (by simp at hf; omega)]
      rw [if_neg (by decide)]
      rfl
    · rw [show cleanChar (Char.ofNat 0x0C) = ['\\', 'f'] from rfl] at hf ⊢
      obtain ⟨k, rfl⟩ : ∃ k, fuel = k + 1 := ⟨fuel - 1, by omega⟩
      simp only [List.cons_append, List.nil_append]
      rw [psb_esc_step k (decodeEscape_f _)]
      rw [ih k rest (by simp at hf; omega)]
      rw [if_neg (by decide)]
      rfl
    · rw [show cleanChar '\n' = ['\\', 'n'] from rfl] at hf ⊢
      obtain ⟨k, rfl⟩ : ∃ k, fuel = k + 1 := ⟨fuel - 1, by omega⟩
      simp only [List.cons_append, List.nil_append]
      rw [psb_esc_step k (decodeEscape_n _)]
      rw [ih k rest (by simp at hf; omega)]
      rw [if_neg (by decide)]
      rfl
    · rw [show cleanChar '\r' = ['\\', 'r'] from rfl] at hf ⊢
      obtain ⟨k, rfl⟩ : ∃ k, fuel = k + 1 := ⟨fuel - 1, by omega⟩
      simp only [List.cons_append, List.nil_append]
      rw [psb_esc_step k (decodeEscape_r _)]
      rw [ih k rest (by simp at hf; omega)]
      rw [if_neg (by decide)]
      rfl
    · rw [show cleanChar '\t' = ['\\', 't'] from rfl] at hf ⊢
      obtain ⟨k, rfl⟩ : ∃ k, fuel = k + 1 := ⟨fuel - 1, by omega⟩
      simp only [List.cons_append, List.nil_append]
      rw [psb_esc_step k (decodeEscape_t _)]
      rw [ih k rest (by simp at hf; omega)]
      rw [if_neg (by decide)]
      rfl
    · rw [show cleanChar '{' = ['\\', 'u', '0', '0', '7', 'B'] from rfl] at hf ⊢
      obtain ⟨k, rfl⟩ : ∃ k, fuel = k + 1 := ⟨fuel - 1, by omega⟩
      simp only [List.cons_append, List.nil_append]
      rw [psb_esc_step k (decodeEscape_u7B _)]
      rw [ih k rest (by simp at hf; omega)]
      rw [if_neg (by decide)]
      rfl
    · rw [show cleanChar '}' = ['\\', 'u', '0', '0', '7', 'D'] from rfl] at hf ⊢
      obtain ⟨k, rfl⟩ : ∃ k, fuel = k + 1 := ⟨fuel - 1, by omega⟩
      simp only [List.cons_append, List.nil_append]
      rw [psb_esc_step k (decodeEscape_u7D _)]
      rw [ih k rest (by simp at hf; omega)]
      rw [if_neg (by decide)]
      rfl
    · rw [show cleanChar '[' = ['\\', 'u', '0', '0', '5', 'B'] from rfl] at hf ⊢
      obtain ⟨k, rfl⟩ : ∃ k, fuel = k + 1 := ⟨fuel - 1, by omega⟩
      simp only [List.cons_append, List.nil_append]
      rw [psb_esc_step k (decodeEscape_u5B _)]
      rw [ih k rest (by simp at hf; omega)]
      rw [if_neg (by decide)]
      rfl
    · rw [show cleanChar ']' = ['\\', 'u', '0', '0', '5', 'D'] from rfl] at hf ⊢
      obtain ⟨k, rfl⟩ : ∃ k, fuel = k + 1 := ⟨fuel - 1, by omega⟩
      simp only [List.cons_append, List.nil_append]
      rw [psb_esc_step k (decodeEscape_u5D _)]
      rw [ih k rest (by simp at hf; omega)]
      rw [if_neg (by decide)]
      rfl
    · rw [show cleanChar ',' = ['\\', 'u', '0', '0', '2', 'C'] from rfl] at hf ⊢
      obtain ⟨k, rfl⟩ : ∃ k, fuel = k + 1 := ⟨fuel - 1, by omega⟩
      simp only [List.cons_append, List.nil_append]
      rw [psb_esc_step k (decodeEscape_u2C _)]
      rw [ih k rest (by simp at hf; omega)]
      rw [if_neg (by decide)]
      rfl
    · rw [show cleanChar ':' = ['\\', 'u', '0', '0', '3', 'A'] from rfl] at hf ⊢
      obtain ⟨k, rfl⟩ : ∃ k, fuel = k + 1 := ⟨fuel - 1, by omega⟩
      simp only [List.cons_append, List.nil_append]
      rw [psb_esc_step k (decodeEscape_u3A _)]
      rw [ih k rest (by simp at hf; omega)]
      rw [if_neg (by decide)]
      rfl
    · rw [show cleanChar '&' = ['&', 'a', 'm', 'p', ';'] from rfl] at hf ⊢
      obtain ⟨k, rfl⟩ : ∃ k, fuel = k + 5 := ⟨fuel - 5, by simp at hf; omega⟩
      simp only [List.cons_append, List.nil_append]
      rw [show k + 5 = (k + 4) + 1 from rfl,
        psb_plain_step _ _ (by decide) (by decide) (by decide)]
      rw [show k + 4 = (k + 3) + 1 from rfl,
        psb_plain_step _ _ (by decide) (by decide) (by decide)]
      rw [show k + 3 = (k + 2) + 1 from rfl,
        psb_plain_step _ _ (by decide) (by decide) (by decide)]
      rw [show k + 2 = (k + 1) + 1 from rfl,
        psb_plain_step _ _ (by decide) (by decide) (by decide)]
      rw [psb_plain_step _ _ (by decide) (by decide) (by decide)]
      rw [ih k rest (by simp at hf; omega)]
      simp
    · obtain ⟨h1, h2, h3, h4, h5, h6, h7, h8, h9, h10, h11, h12, h13, h14,
        h15⟩ := hplain
      rw [cleanChar, if_neg h1, if_neg h2, if_neg h3, if_neg h4, if_neg h5,
        if_neg h6, if_neg h7, if_neg h8, if_neg h9, if_neg h10, if_neg h11,
        if_neg h12, if_neg h13, if_neg h14, if_neg h15] at hf ⊢
      obtain ⟨k, rfl⟩ : ∃ k, fuel = k + 1 := ⟨fuel - 1, by simp at hf; omega⟩
      simp only [List.cons_append, List.nil_append]
      rw [psb_plain_step k _ h1 h2 hnotlt]
      rw [ih k rest (by simp at hf; omega)]
      rfl

theorem parseString_clean (d : List Char) (rest : List Char) :
    parseString (cleanChars d ++ '"' :: rest) = some (parsedChars d, rest) := by
  apply parseStringBodyF_clean
  simp

theorem parseString_key_role (t : List Char) :
    parseString ('r' :: 'o' :: 'l' :: 'e' :: '"' :: t)
      = some (['r', 'o', 'l', 'e'], t) := by
  simp [parseString, parseStringBodyF]

theorem parseString_key_content (t : List Char) :
    parseString ('c' :: 'o' :: 'n' :: 't' :: 'e' :: 'n' :: 't' :: '"' :: t)
      = some (['c', 'o', 'n', 't', 'e', 'n', 't'], t) := by
  simp [parseString, parseStringBodyF]

theorem parseString_system (t : List Char) :
    parseString ('s' :: 'y' :: 's' :: 't' :: 'e' :: 'm' :: '"' :: t)
      = some (['s', 'y', 's', 't', 'e', 'm'], t) := by
  simp [parseString, parseStringBodyF]

theorem parseString_user (t : List Char) :
    parseString ('u' :: 's' :: 'e' :: 'r' :: '"' :: t)
      = some (['u', 's', 'e', 'r'], t) := by
  simp [parseString, parseStringBodyF]

theorem parseString_assistant (t : List Char) :
    parseString ('a' :: 's' :: 's' :: 'i' :: 's' :: 't' :: 'a' :: 'n' :: 't'
        :: '"' :: t)
      = some (['a', 's', 's', 'i', 's', 't', 'a', 'n', 't'], t) := by
  simp [parseString, parseStringBodyF]

theorem parseFields_spec (r : Role) (c : String) (f : Nat) (rest : List Char) :
    parseFields (f + 2) (fieldChars r c ++ rest) none none none
      = some (msgOfBlock (r, c), rest) := by
  cases r <;>
    simp [parseFields, fieldChars, roleChars, skipWs, List.dropWhile, jsonWs,
      parseString_key_role, parseString_key_content, parseString_system,
      parseString_user, parseString_assistant, parseString_clean, roleOfChars,
      finishFields, msgOfBlock, List.cons_append, List.append_assoc]

theorem parseMessage_spec (r : Role) (c : String) (rest : List Char) :
    parseMessage (objChars r c ++ rest) = some (msgOfBlock (r, c), rest) := by
  have hws : skipWs (objChars r c ++ rest) = '{' :: (fieldChars r c ++ rest) := by
    simp [objChars, skipWs, List.dropWhile, jsonWs]
  obtain ⟨f, hf⟩ : ∃ f, (fieldChars r c ++ rest).length + 1 = f + 2 :=
    ⟨(fieldChars r c ++ rest).length - 1, by simp [fieldChars]⟩
  simp only [parseMessage, hws]
  rw [hf, parseFields_spec]

theorem sepChars_length (bs : List (Role × String)) :
    bs.length ≤ (sepChars bs).length := by
  induction bs with
  | nil => simp [sepChars]
  | cons b t ih =>
    cases t with
    | nil => simp [sepChars, objChars]
    | cons b2 t2 =>
      rw [sepChars]
      have h2 := ih
      simp only [List.length_append, List.length_cons] at h2 ⊢
      omega

theorem parseElems_spec (bs : List (Role × String)) (hne : bs ≠ []) :
    ∀ (f : Nat) (rest : List Char), bs.length ≤ f →
      parseElems f (sepChars bs ++ ']' :: rest) = some (msgList bs, rest) := by
  induction bs with
  | nil => exact absurd rfl hne
  | cons b t ih =>
    intro f rest hf
    obtain ⟨k, rfl⟩ : ∃ k, f = k + 1 := ⟨f - 1, by simp at hf; omega⟩
    cases t with
    | nil =>
      rw [sepChars, parseElems, parseMessage_spec]
      simp [skipWs, List.dropWhile, jsonWs, msgList]
    | cons b2 t2 =>
      rw [sepChars, parseElems]
      rw [List.append_assoc, List.cons_append]
      rw [parseMessage_spec]
      have hws : skipWs (',' :: (sepChars (b2 :: t2) ++ ']' :: rest))
          = ',' :: (sepChars (b2 :: t2) ++ ']' :: rest) := by
        simp [skipWs, List.dropWhile, jsonWs]
      simp only [hws]
      rw [ih (by simp) k rest (by simp at hf ⊢; omega)]
      simp [msgList]

theorem fieldChars_last (r : Role) (c : String) :
    ∃ t, fieldChars r c = t ++ ['}'] := by
  refine ⟨'"' :: 'r' :: 'o' :: 'l' :: 'e' :: '"' :: ':' :: ' ' :: '"' ::
    (roleChars r ++ '"' :: ',' :: ' ' :: '"' :: 'c' :: 'o' :: 'n' :: 't' ::
      'e' :: 'n' :: 't' :: '"' :: ':' :: ' ' :: '"' ::
      (cleanChars (rustTrim c.data) ++ ['"'])), ?_⟩
  simp [fieldChars, List.append_assoc]

theorem sepChars_head (bs : List (Role × String)) (hne : bs ≠ []) :
    ∃ t, sepChars bs = '{' :: t := by
  cases bs with
  | nil => exact absurd rfl hne
  | cons b t =>
    cases t with
    | nil => exact ⟨fieldChars b.1 b.2, rfl⟩
    | cons b2 t2 =>
      exact ⟨fieldChars b.1 b.2 ++ ',' :: sepChars (b2 :: t2), rfl⟩

theorem sepChars_last (bs : List (Role × String)) (hne : bs ≠ []) :
    ∃ t, sepChars bs = t ++ ['}'] := by
  induction bs with
  | nil => exact absurd rfl hne
  | cons b t ih =>
    cases t with
    | nil =>
      obtain ⟨u, hu⟩ := fieldChars_last b.1 b.2
      exact ⟨'{' :: u, by rw [sepChars, objChars, hu]; simp⟩
    | cons b2 t2 =>
      obtain ⟨u, hu⟩ := ih (by simp)
      refine ⟨objChars b.1 b.2 ++ ',' :: u, ?_⟩
      rw [sepChars, hu]
      simp

theorem renderInner_blocks (bs : List (Role × String)) (hne : bs ≠ []) :
    renderInner (bs.map blockItem) = sepChars bs ++ [','] := by
  induction bs with
  | nil => exact absurd rfl hne
  | cons b t ih =>
    cases t with
    | nil => simp [renderInner, renderItem, blockItem, sepChars]
    | cons b2 t2 =>
      have h2 := ih (by simp)
      rw [sepChars]
      simp only [List.map_cons, renderInner, List.flatten_cons] at h2 ⊢
      rw [h2]
      simp [renderItem, blockItem, List.append_assoc]

theorem dropWhile_head_no (p : Char → Bool) {c : Char} (l : List Char)
    (h : p c = false) : List.dropWhile p (c :: l) = c :: l := by
  simp [List.dropWhile, h]

theorem dropEndWhile_append_single (p : Char → Bool) (l : List Char)
    {c : Char} (hc : p c = true) :
    dropEndWhile p (l ++ [c]) = dropEndWhile p l := by
  rw [dropEndWhile, dropEndWhile, List.reverse_append]
  simp only [List.reverse_cons, List.reverse_nil, List.nil_append,
    List.cons_append, List.dropWhile_cons_of_pos hc]

theorem dropEndWhile_last_no (p : Char → Bool) {l t : List Char} {x : Char}
    (hl : l = t ++ [x]) (hx : p x = false) : dropEndWhile p l = l := by
  subst hl
  rw [dropEndWhile, List.reverse_append]
  simp only [List.reverse_cons, List.reverse_nil, List.nil_append,
    List.cons_append]
  rw [dropWhile_head_no _ _ hx]
  simp

theorem remove_last_comma_sep (bs : List (Role × String)) (hne : bs ≠ []) :
    remove_last_comma (sepChars bs ++ [',']) = sepChars bs := by
  obtain ⟨th, hh⟩ := sepChars_head bs hne
  obtain ⟨tl, hl⟩ := sepChars_last bs hne
  have h1 : List.dropWhile rustIsWs (sepChars bs ++ [','])
      = sepChars bs ++ [','] := by
    rw [hh, List.cons_append]
    exact dropWhile_head_no _ _ (by decide)
  have htrim : rustTrim (sepChars bs ++ [',']) = sepChars bs ++ [','] := by
    rw [rustTrim, h1]
    exact dropEndWhile_last_no _ rfl (by decide)
  rw [remove_last_comma, htrim]
  rw [dropEndWhile_append_single _ _ (by decide)]
  exact dropEndWhile_last_no _ hl (by decide)

theorem renderBody_blocks (bs : List (Role × String)) (hne : bs ≠ []) :
    renderBody (bs.map blockItem) = '[' :: (sepChars bs ++ [']']) := by
  rw [renderBody, renderInner_blocks bs hne, remove_last_comma_sep bs hne]

/-- Rendering a chat-envelope body of role blocks parses back as exactly the
corresponding message list. -/
theorem parseChatPrompt_blocks (bs : List (Role × String)) :
    parseChatPrompt (renderBody (bs.map blockItem)) = some (msgList bs) := by
  cases bs with
  | nil => decide
  | cons b t =>
    rw [renderBody_blocks _ (by simp)]
    obtain ⟨th, hh⟩ := sepChars_head (b :: t) (by simp)
    have hws1 : skipWs ('[' :: (sepChars (b :: t) ++ [']']))
        = '[' :: (sepChars (b :: t) ++ [']']) := by
      rw [skipWs, dropWhile_head_no _ _ (by decide)]
    have hws2 : skipWs (sepChars (b :: t) ++ [']'])
        = '{' :: (th ++ [']']) := by
      rw [hh, List.cons_append, skipWs, dropWhile_head_no _ _ (by decide)]
    have hel : parseElems (('{' :: (th ++ [']'])).length + 1)
        ('{' :: (th ++ [']'])) = some (msgList (b :: t), []) := by
      have h0 : ('{' :: (th ++ [']']) : List Char)
          = sepChars (b :: t) ++ ']' :: [] := by
        rw [hh, List.cons_append]
      rw [h0]
      apply parseElems_spec _ (by simp)
      have := sepChars_length (b :: t)
      simp only [List.length_append, List.length_cons] at this ⊢
      omega
    simp only [parseChatPrompt, hws1, List.head?_cons, List.tail_cons,
      Option.some.injEq, if_pos rfl, hws2]
    simp only [if_true]
    rw [if_neg (show ¬('{' = ']') from by decide)]
    rw [hel]
    simp [skipWs]

theorem lookupA_updateA (l : List (String × String)) (k v : String)
    {b : String} (h : lookupA l k = some b) :
    lookupA (updateA l k v) k = some v := by
  induction l with
  | nil => simp [lookupA] at h
  | cons p t ih =>
    by_cases hk : p.1 = k
    · simp only [updateA, List.map_cons, if_pos hk]
      rw [lookupA]
      simp
    · rw [lookupA] at h
      rw [if_neg hk] at h
      simp only [updateA, List.map_cons, if_neg hk]
      rw [lookupA, if_neg hk]
      exact ih h

theorem msgList_append (xs ys : List (Role × String)) :
    msgList (xs ++ ys) = msgList xs ++ msgList ys := by
  simp [msgList]

/-! ### Theorems for claim C2 -/

/-- C2 counterexample: the claim quantifies over every suffix string.  Take
the registered body `{{#chat}}{{#user}}hi{{/user}}{{/chat}}` and the suffix
`hello`.  After `add_to_template` the stored body is
`{{#chat}}{{#user}}hi{{/user}}hello{{/chat}}`, but rendering that body does
not yield any chat message sequence at all (let alone the original's messages
followed by the suffix's): the literal `hello` lands between the emitted JSON
objects and the rendered string no longer parses, so `render` falls back to a
text prompt. -/
theorem c2_counterexample :
    addToBody (blocksBody [(.user, "hi")]) "hello".data
        = bodyStr [.block .user "hi", .lit "hello"]
    ∧ renderTemplate [.block .user "hi"]
        = .chat [⟨.user, "hi", none⟩]
    ∧ parseChatPrompt (renderBody [.block .user "hi", .lit "hello"]) = none
    ∧ renderTemplate [.block .user "hi", .lit "hello"]
        = .text ⟨renderBody [.block .user "hi", .lit "hello"]⟩ := by
  refine ⟨?_, by decide, by decide, by decide⟩
  rw [addToBody_blocks_any [(.user, "hi")] (by decide)]
  decide

/-- C2 (amended): for a registered template whose body is a chat envelope of
role blocks with brace-free contents, and a suffix that is a sequence of role
blocks, `add_to_template` stores exactly the chat envelope of the
concatenated block sequences (so the body still begins with the opening and
ends with the closing envelope marker), and rendering the updated template
yields the chat message sequence of the original blocks followed by the
messages of the suffix blocks. -/
theorem c2_add_to_template_amended (e : TemplateEngine) (name : String)
    (xs ys : List (Role × String)) (hx : ∀ b ∈ xs, braceFree b.2)
    (hreg : lookupA e.templates name = some ⟨blocksBody xs⟩) :
    lookupA (e.add_to_template name ⟨blocksInner ys⟩).templates name
        = some ⟨blocksBody (xs ++ ys)⟩
    ∧ chatOpen <+: blocksBody (xs ++ ys)
    ∧ chatClose <:+ blocksBody (xs ++ ys)
    ∧ renderTemplate ((xs ++ ys).map blockItem)
        = .chat (msgList xs ++ msgList ys) := by
  refine ⟨?_, ?_, ?_, ?_⟩
  · unfold TemplateEngine.add_to_template
    rw [hreg]
    have hbody : addToBody (String.data ⟨blocksBody xs⟩) (String.data ⟨blocksInner ys⟩)
        = blocksBody (xs ++ ys) := addToBody_blocks xs ys hx
    simp only [hbody]
    exact lookupA_updateA e.templates name _ hreg
  · exact ⟨innerStr ((xs ++ ys).map blockItem) ++ chatClose, by
      simp [blocksBody, bodyStr, blocksInner, List.append_assoc]⟩
  · exact ⟨chatOpen ++ innerStr ((xs ++ ys).map blockItem), by
      simp [blocksBody, bodyStr, blocksInner, List.append_assoc]⟩
  · rw [renderTemplate, parseChatPrompt_blocks (xs ++ ys), msgList_append]

/-- Witness for `c2_add_to_template_amended` at a one-block template and a
one-block suffix. -/
theorem c2_add_to_template_amended_witness :
    lookupA ((TemplateEngine.mk
        [("t", ⟨blocksBody [(.user, "hi")]⟩)]
        [("t", ⟨blocksBody [(.user, "hi")]⟩)]).add_to_template "t"
          ⟨blocksInner [(.system, "ok")]⟩).templates "t"
        = some ⟨blocksBody [(.user, "hi"), (.system, "ok")]⟩
    ∧ renderTemplate ([(Role.user, "hi"), (Role.system, "ok")].map blockItem)
        = .chat (msgList [(.user, "hi")] ++ msgList [(.system, "ok")]) := by
  have h := c2_add_to_template_amended
    (TemplateEngine.mk [("t", ⟨blocksBody [(.user, "hi")]⟩)]
      [("t", ⟨blocksBody [(.user, "hi")]⟩)]) "t"
    [(.user, "hi")] [(.system, "ok")] (by decide) (by rw [lookupA]; simp)
  exact ⟨h.1, h.2.2.2⟩

/-! ### Theorems for claims C3 and C4 -/

/-- C3 counterexample: the claim says a mismatched append (Chat into Text)
fails with `IncompatiblePromptKind`; no such error exists in the code.
Appending a chat prompt into the text prompt `a` succeeds, concatenating the
chat's JSON serialization onto the string. -/
theorem c3_counterexample :
    save (.text "a") (.chat [⟨.user, "hi", none⟩])
      = some (.text
        "a[\x7b\"role\":\"user\",\"content\":\"hi\",\"refusal\":null\x7d]") := by
  decide

/-- C3 (amended): appending Text into Text concatenates the strings and
appending Chat into Chat extends the message sequence, as claimed; but
mismatched appends do not fail with `IncompatiblePromptKind`: appending a
Chat prompt into a Text prompt succeeds, appending the chat's JSON string
form, while appending a Text prompt into a Chat prompt panics inside
`to_chat().unwrap()` (the default `to_chat` is `unimplemented!`). -/
theorem c3_save_amended (s t : String) (ms ys : List Message) :
    save (.text s) (.text t) = some (.text (s ++ t))
    ∧ save (.chat ms) (.chat ys) = some (.chat (ms ++ ys))
    ∧ save (.text s) (.chat ms) = some (.text (s ++ chatToString ms))
    ∧ save (.chat ms) (.text t) = none := by
  refine ⟨rfl, rfl, rfl, rfl⟩

/-- C4 counterexample: for a non-chat prompt, `to_chat` does not return an
error value `"not a chat prompt"`: the default implementation is
`unimplemented!("Unable to convert prompt to ChatPrompt")`, which panics. -/
theorem c4_counterexample :
    toChat (.text "hello")
        = .panicked "Unable to convert prompt to ChatPrompt"
    ∧ (TCResult.panicked "Unable to convert prompt to ChatPrompt"
        ≠ .err "not a chat prompt") := by
  decide

/-- C4 (amended): for every prompt that is not a Chat prompt (a plain Text
prompt or a Record), `to_chat` panics with the unimplemented-message
`Unable to convert prompt to ChatPrompt` instead of returning a chat
transcript or an error value; for every Chat prompt, `to_chat` returns its
own message sequence unchanged. -/
theorem c4_to_chat_amended (s : String) (r : Record) (ms : List Message) :
    toChat (.text s) = .panicked "Unable to convert prompt to ChatPrompt"
    ∧ toChat (.record r) = .panicked "Unable to convert prompt to ChatPrompt"
    ∧ toChat (.chat ms) = .ok ms := by
  refine ⟨rfl, rfl, rfl⟩

/-! ### Theorems for claim C6 -/

theorem sendLoop_calls_le (outcome : Nat → Bool) (rem : Nat) :
    ∀ (b k : Nat), (sendLoop outcome rem b k).2.1 ≤ k + rem + 1 := by
  induction rem with
  | zero =>
    intro b k
    rw [sendLoop]
    split <;> simp
  | succ r ih =>
    intro b k
    rw [sendLoop]
    split
    · simp
    · have := ih (min (b * 2) MAX_BACKOFF_MS) (k + 1)
      simp only []
      omega

theorem sendLoop_sleeps_prefix (outcome : Nat → Bool) (rem : Nat) :
    ∀ (b k : Nat), (sendLoop outcome rem b k).2.2 <+: backoffSeq b rem := by
  induction rem with
  | zero =>
    intro b k
    rw [sendLoop]
    split <;> simp [backoffSeq]
  | succ r ih =>
    intro b k
    rw [sendLoop]
    split
    · simp
    · simp only [backoffSeq]
      exact List.cons_prefix_cons.mpr ⟨rfl, ih (min (b * 2) MAX_BACKOFF_MS) (k + 1)⟩

theorem sendLoop_allfail (outcome : Nat → Bool) (rem : Nat) :
    ∀ (b k : Nat), (∀ j, k ≤ j → j ≤ k + rem → outcome j = false) →
      sendLoop outcome rem b k = (false, k + rem + 1, backoffSeq b rem) := by
  induction rem with
  | zero =>
    intro b k h
    rw [sendLoop, h k le_rfl (by omega)]
    simp [backoffSeq]
  | succ r ih =>
    intro b k h
    rw [sendLoop, h k le_rfl (by omega)]
    simp only []
    rw [ih (min (b * 2) MAX_BACKOFF_MS) (k + 1)
      (fun j h1 h2 => h j (by omega) (by omega))]
    rw [if_neg (by decide)]
    simp only [backoffSeq, Prod.mk.injEq, true_and, and_true]
    omega

/-- C6 counterexample: the claim says the send makes at most 5 attempts in
total; with every send failing, the code makes 6 send calls (the initial send
plus `MAX_RETRIES = 5` retries). -/
theorem c6_counterexample :
    send_with_exponential_backoff (fun _ => false)
        = (false, 6, [100, 200, 400, 800, 1600])
    ∧ ¬((send_with_exponential_backoff (fun _ => false)).2.1 ≤ 5) := by
  decide

/-- C6 (amended): every channel send retries with exponential backoff whose
first delay is 100 ms, doubling after each failure with the update capped at
10 s (`MAX_BACKOFF_MS`), making at most 6 send calls in total (the initial
send plus at most `MAX_RETRIES = 5` retries, so the actual sleep sequence is
always a prefix of 100, 200, 400, 800, 1600 ms); when the retries are
exhausted the function gives up and returns an error instead of retrying
further. -/
theorem c6_backoff_amended (outcome : Nat → Bool) :
    (send_with_exponential_backoff outcome).2.1 ≤ 6
    ∧ (send_with_exponential_backoff outcome).2.2
        <+: [100, 200, 400, 800, 1600]
    ∧ backoffSeq INITIAL_BACKOFF_MS MAX_RETRIES = [100, 200, 400, 800, 1600]
    ∧ ((∀ k, k < 6 → outcome k = false) →
        send_with_exponential_backoff outcome
          = (false, 6, [100, 200, 400, 800, 1600])) := by
  refine ⟨?_, ?_, by decide, ?_⟩
  · exact sendLoop_calls_le outcome MAX_RETRIES INITIAL_BACKOFF_MS 0
  · have h := sendLoop_sleeps_prefix outcome MAX_RETRIES INITIAL_BACKOFF_MS 0
    have hseq : backoffSeq INITIAL_BACKOFF_MS MAX_RETRIES
        = [100, 200, 400, 800, 1600] := by decide
    rw [hseq] at h
    exact h
  · intro h
    have := sendLoop_allfail outcome MAX_RETRIES INITIAL_BACKOFF_MS 0
      (fun j h1 h2 => h j (by simp [MAX_RETRIES] at h2; omega))
    rw [send_with_exponential_backoff, this]
    decide

/-- Witness for `c6_backoff_amended`: with every send failing, the driver
makes six send calls and sleeps 100, 200, 400, 800 and 1600 ms. -/
theorem c6_backoff_amended_witness :
    send_with_exponential_backoff (fun _ => false)
      = (false, 6, [100, 200, 400, 800, 1600]) :=
  (c6_backoff_amended (fun _ => false)).2.2.2 (by decide)

/-! ### Theorems for claim C5 -/

theorem gatherLoop_allok {α : Type} (resp : Nat → α) (l : List Nat) :
    ∀ acc : List α,
      gatherLoop (l.map fun i => (i, Except.ok (resp i))) acc
        = .ok (l.foldl (fun a i => a.set i (resp i)) acc) := by
  induction l with
  | nil => intro acc; rfl
  | cons j t ih =>
    intro acc
    rw [List.map_cons, gatherLoop, List.foldl_cons]
    exact ih (acc.set j (resp j))

theorem foldl_set_length {α : Type} (resp : Nat → α) (l : List Nat) :
    ∀ acc : List α,
      (l.foldl (fun a i => a.set i (resp i)) acc).length = acc.length := by
  induction l with
  | nil => intro acc; rfl
  | cons j t ih =>
    intro acc
    rw [List.foldl_cons, ih]
    simp

theorem foldl_set_get {α : Type} (resp : Nat → α) (l : List Nat) :
    ∀ (acc : List α) (i : Nat), i < acc.length →
      (l.foldl (fun a i => a.set i (resp i)) acc)[i]?
        = if i ∈ l then some (resp i) else acc[i]? := by
  induction l with
  | nil => intro acc i hi; simp
  | cons j t ih =>
    intro acc i hi
    rw [List.foldl_cons, ih (acc.set j (resp j)) i (by simpa using hi)]
    by_cases hm : i ∈ t
    · simp [hm]
    · rw [if_neg hm]
      by_cases hj : i = j
      · subst hj
        rw [if_pos (by simp)]
        rw [List.getElem?_set_self' ]
        simp [hi]
      · rw [if_neg (by simp [hj, hm])]
        rw [List.getElem?_set_ne (by omega)]

/-- C5: for a batch of `n` prompts, whatever order the per-prompt tasks
deliver their `(index, result)` messages on the channel, if all requests
succeed the returned vector is exactly the responses in input order: it has
length `n` and its i-th element is the response produced from the i-th
prompt. -/
theorem c5_parallel_embeddings_order {α : Type} [Inhabited α] (n : Nat)
    (resp : Nat → α) (arrival : List Nat)
    (hperm : arrival.Perm (List.range n)) :
    generate_embeddings n (arrival.map fun i => (i, Except.ok (resp i)))
        = Except.ok ((List.range n).map resp)
    ∧ ((List.range n).map resp).length = n
    ∧ ∀ i (hi : i < n), ((List.range n).map resp)[i]? = some (resp i) := by
  refine ⟨?_, by simp, fun i hi => by simp [hi]⟩
  rw [generate_embeddings, gatherLoop_allok]
  congr 1
  apply List.ext_getElem?
  intro i
  by_cases hi : i < n
  · rw [foldl_set_get resp arrival _ i (by simp [hi])]
    have hmem : i ∈ arrival := hperm.mem_iff.mpr (by simp [hi])
    rw [if_pos hmem]
    simp [hi]
  · have h1 : ((List.range n).map resp)[i]? = none := by
      rw [List.getElem?_eq_none]
      simp; omega
    rw [h1, List.getElem?_eq_none]
    rw [foldl_set_length]
    simp; omega

/-- Witness for `c5_parallel_embeddings_order`: two prompts whose messages
arrive out of order still fill the slots in input order. -/
theorem c5_parallel_embeddings_order_witness :
    generate_embeddings 2 ([1, 0].map fun i => (i, Except.ok (10 * i)))
      = Except.ok ((List.range 2).map fun i => 10 * i) :=
  (c5_parallel_embeddings_order 2 (fun i => 10 * i) [1, 0] (by decide)).1

/-! ### C7 : the map-reduce collector -/

lemma mapCollector_map_step (r : String) (rest : List WorkerMsg)
    (closed : Bool) (acc : List String) :
    mapCollector (⟨.map, r⟩ :: rest) closed acc
      = mapCollector rest closed (acc ++ [r]) := rfl

lemma mapCollector_maps (rs : List String) (closed : Bool)
    (acc : List String) :
    mapCollector (rs.map fun r => ⟨.map, r⟩) closed acc
      = mapCollector [] closed (acc ++ rs) := by
  induction rs generalizing acc with
  | nil => simp
  | cons r t ih =>
    rw [List.map_cons, mapCollector_map_step, ih]
    simp

/-- C7: the map phase of a map-reduce execution never delivers the group
record.  The collector spawned by `Master::map` (master.rs lines 40-50)
assembles the group record only when `recv` returns `None`, i.e. when the
results channel has closed; for any number of `Map` messages on a channel
that is still open it is still waiting, and a `Reduce` message on the
results channel makes it panic outright, so the spec's "N Map messages,
then one Reduce message, and the reduce input is the concatenation of the
map results" never comes to pass: the channel stays open (each worker
retains a sender clone for the master's lifetime), the collector never
finishes, and `Master::reduce` is never reached. -/
theorem c7_map_collector_never_finishes (rs : List String) :
    mapCollector (rs.map fun r => ⟨.map, r⟩) false [] = .waiting rs
    ∧ mapCollector (rs.map fun r => ⟨.map, r⟩) true []
        = .finished (Record.new (.vec rs))
    ∧ ∀ (pre post : List WorkerMsg) (r : String) (closed : Bool)
        (acc : List String),
        (∀ m ∈ pre, m.task_completed = .map) →
        mapCollector (pre ++ ⟨.reduce, r⟩ :: post) closed acc
          = .panicked := by
  refine ⟨?_, ?_, ?_⟩
  · rw [mapCollector_maps]; simp [mapCollector]
  · rw [mapCollector_maps]; simp [mapCollector]
  · intro pre post r closed acc hpre
    induction pre generalizing acc with
    | nil => rfl
    | cons m t ih =>
      obtain ⟨tc, cr⟩ := m
      have hm : tc = TaskType.map := hpre ⟨tc, cr⟩ (by simp)
      subst hm
      rw [List.cons_append, mapCollector_map_step]
      exact ih _ (fun m hm => hpre m (List.mem_cons_of_mem _ hm))

/-- Closed-form check of `c7_map_collector_never_finishes` at a concrete
input (one record, so one Map message): the open-channel collector is still
waiting and a Reduce message panics. -/
theorem c7_map_collector_never_finishes_witness :
    mapCollector ([ "m0" ].map fun r => ⟨.map, r⟩) false [] = .waiting ["m0"]
    ∧ mapCollector ([⟨.map, "m0"⟩, ⟨.reduce, "r"⟩]) false [] = .panicked :=
  ⟨(c7_map_collector_never_finishes ["m0"]).1,
   (c7_map_collector_never_finishes ["m0"]).2.2 [⟨.map, "m0"⟩] [] "r" false []
     (by intro m hm; simp at hm; subst hm; rfl)⟩

/-! ### C8 : insert_many -/

lemma collectPoints_ok {V P Q : Type} (f : P → Q) (i : Nat)
    (l : List (V × P)) :
    collectPoints (fun p => Except.ok (f p)) i l
      = Except.ok ((List.enumFrom i l).map fun e =>
          (⟨e.1, e.2.1, f e.2.2⟩ : PointStruct V Q)) := by
  induction l generalizing i with
  | nil => rfl
  | cons vp t ih =>
    obtain ⟨v, p⟩ := vp
    rw [collectPoints]
    rw [ih (i + 1)]
    simp [List.enumFrom]

/-- C8 counterexample: `insert_many` with 1 vector and 2 payloads does not
fail (there is no ArityMismatch and no length check in qdrant.rs lines
248-272): `Iterator::zip` silently truncates, and the call succeeds with a
single point.  An empty vector list with non-empty payloads likewise
succeeds, upserting nothing. -/
theorem c8_counterexample :
    insert_many (fun p : Nat => Except.ok p) [7] [1, 2]
      = Except.ok [⟨0, 7, 1⟩]
    ∧ insert_many (fun p : Nat => Except.ok p) ([] : List Nat) [1, 2]
      = Except.ok [] :=
  ⟨rfl, rfl⟩

/-- C8 amended: `insert_many` performs no length check and never reports an
arity error: the vectors are zipped with the payloads, truncating to the
shorter list; when every payload converts, the call succeeds with exactly
one point per retained pair, `min |vectors| |payloads|` points in total,
with numeric ids contiguous from 0. -/
theorem c8_insert_many_amended {V P Q : Type} (f : P → Q)
    (vectors : List V) (payloads : List P) :
    insert_many (fun p => Except.ok (f p)) vectors payloads
      = Except.ok ((vectors.zip payloads).enum.map fun e =>
          (⟨e.1, e.2.1, f e.2.2⟩ : PointStruct V Q))
    ∧ ((vectors.zip payloads).enum.map fun e =>
          (⟨e.1, e.2.1, f e.2.2⟩ : PointStruct V Q)).length
        = min vectors.length payloads.length
    ∧ (((vectors.zip payloads).enum.map fun e =>
          (⟨e.1, e.2.1, f e.2.2⟩ : PointStruct V Q)).map PointStruct.id)
        = List.range (min vectors.length payloads.length) := by
  refine ⟨?_, by simp, ?_⟩
  · rw [insert_many, collectPoints_ok]
    rfl
  · rw [List.map_map]
    have h1 : ((fun x : PointStruct V Q => x.id) ∘ fun e : Nat × (V × P) =>
        (⟨e.1, e.2.1, f e.2.2⟩ : PointStruct V Q)) = Prod.fst := rfl
    rw [h1, List.enum_map_fst, List.length_zip]

/-! ### C9 : Record.split -/

lemma filter_dropWhile_nonWs (l : List Char) :
    (l.dropWhile rustIsWs).filter (fun c => !rustIsWs c)
      = l.filter (fun c => !rustIsWs c) := by
  induction l with
  | nil => rfl
  | cons c t ih =>
    by_cases hc : rustIsWs c
    · rw [List.dropWhile_cons_of_pos hc, ih, List.filter_cons_of_neg]
      simp [hc]
    · rw [List.dropWhile_cons_of_neg hc]

lemma filter_rustTrim_nonWs (l : List Char) :
    (rustTrim l).filter (fun c => !rustIsWs c)
      = l.filter (fun c => !rustIsWs c) := by
  rw [rustTrim, dropEndWhile, List.filter_reverse, filter_dropWhile_nonWs,
    List.filter_reverse, List.reverse_reverse, filter_dropWhile_nonWs]

lemma rustTrim_length_le (l : List Char) : (rustTrim l).length ≤ l.length := by
  rw [rustTrim, dropEndWhile]
  calc ((l.dropWhile rustIsWs).reverse.dropWhile rustIsWs).reverse.length
      = ((l.dropWhile rustIsWs).reverse.dropWhile rustIsWs).length := by
        rw [List.length_reverse]
    _ ≤ (l.dropWhile rustIsWs).reverse.length :=
        (List.dropWhile_sublist _).length_le
    _ = (l.dropWhile rustIsWs).length := by rw [List.length_reverse]
    _ ≤ l.length := (List.dropWhile_sublist _).length_le

lemma splitterChunksF_join_filter (fuel : Nat) :
    ∀ (s : List Char) (m : Nat), s.length ≤ fuel →
    ((splitterChunksF fuel s m).flatten).filter (fun c => !rustIsWs c)
      = s.filter (fun c => !rustIsWs c) := by
  induction fuel with
  | zero =>
    intro s m h
    rw [List.length_eq_zero.mp (Nat.le_zero.mp h)]
    rfl
  | succ fuel ih =>
    intro s m h
    match s with
    | [] => rfl
    | c :: t =>
      rw [splitterChunksF]
      have hrest : ((c :: t).drop (max m 1)).length ≤ fuel := by
        rw [List.length_drop]
        simp only [List.length_cons] at h ⊢
        have h1 : 1 ≤ max m 1 := Nat.le_max_right m 1
        omega
      have hsplit : ((c :: t).take (max m 1)).filter (fun c => !rustIsWs c)
            ++ ((c :: t).drop (max m 1)).filter (fun c => !rustIsWs c)
          = (c :: t).filter (fun c => !rustIsWs c) := by
        rw [← List.filter_append, List.take_append_drop]
      by_cases hch : rustTrim ((c :: t).take (max m 1)) = []
      · rw [if_pos hch, ih _ _ hrest]
        have h0 : ((c :: t).take (max m 1)).filter (fun c => !rustIsWs c)
            = [] := by
          rw [← filter_rustTrim_nonWs, hch]; rfl
        rw [← hsplit, h0, List.nil_append]
      · rw [if_neg hch, List.flatten_cons, List.filter_append,
          filter_rustTrim_nonWs, ih _ _ hrest, hsplit]

lemma splitterChunksF_chunk_le (fuel : Nat) :
    ∀ (s : List Char) (m : Nat), ∀ ch ∈ splitterChunksF fuel s m,
    ch.length ≤ max m 1 := by
  induction fuel with
  | zero => intro s m ch hch; simp [splitterChunksF] at hch
  | succ fuel ih =>
    intro s m ch hch
    match s with
    | [] => simp [splitterChunksF] at hch
    | c :: t =>
      rw [splitterChunksF] at hch
      by_cases hc : rustTrim ((c :: t).take (max m 1)) = []
      · rw [if_pos hc] at hch
        exact ih _ _ ch hch
      · rw [if_neg hc, List.mem_cons] at hch
        rcases hch with rfl | hch
        · calc (rustTrim ((c :: t).take (max m 1))).length
              ≤ ((c :: t).take (max m 1)).length := rustTrim_length_le _
            _ ≤ max m 1 := List.length_take_le _ _
        · exact ih _ _ ch hch

/-- C9 counterexample: splitting the 3-byte text record `"abc"` into 2
chunks yields 3 chunk records, not at most 2: `Record::split` sets the
splitter's chunk size to `len / chunks = 3 / 2 = 1`, so each character
becomes its own chunk and the count exceeds the requested `n`. -/
theorem c9_counterexample :
    (Record.split (Record.new (.str "abc")) 2).length = 3
    ∧ ¬((Record.split (Record.new (.str "abc")) 2).length ≤ 2) := by
  refine ⟨?_, ?_⟩ <;> decide

/-- C9 amended: for a Text record and `n ≥ 1`, `record.split(n)` produces
chunks of at most `max (len / n) 1` characters whose concatenation equals
the original text up to whitespace removed by chunk trimming (the
non-whitespace characters are preserved exactly, in order); the number of
chunks is NOT bounded by `n` (it is roughly `len / (len / n)`, which
exceeds `n` whenever the division truncates). -/
theorem c9_split_amended (s : String) (n : Nat) (hn : 1 ≤ n) :
    (((Record.split (Record.new (.str s)) n).map fun r =>
        (Content.toString r.content).data).flatten).filter
        (fun c => !rustIsWs c)
      = s.data.filter (fun c => !rustIsWs c)
    ∧ ∀ r ∈ Record.split (Record.new (.str s)) n,
        (Content.toString r.content).data.length
          ≤ max (s.utf8ByteSize / n) 1 := by
  have hsplit : Record.split (Record.new (.str s)) n
      = (splitterChunks s.data (s.utf8ByteSize / n)).map
          fun cs => Record.new (.str ⟨cs⟩) := rfl
  constructor
  · rw [hsplit, List.map_map]
    have h1 : ((fun r : Record => (Content.toString r.content).data)
        ∘ fun cs : List Char => Record.new (.str ⟨cs⟩)) = id := rfl
    rw [h1, List.map_id, splitterChunks,
      splitterChunksF_join_filter _ _ _ (Nat.le_refl _)]
  · intro r hr
    rw [hsplit, List.mem_map] at hr
    obtain ⟨cs, hcs, rfl⟩ := hr
    exact splitterChunksF_chunk_le _ _ _ cs hcs

/-- Witness for `c9_split_amended` at `s = "a b"`, `n = 2`. -/
theorem c9_split_amended_witness :
    (((Record.split (Record.new (.str "a b")) 2).map fun r =>
        (Content.toString r.content).data).flatten).filter
        (fun c => !rustIsWs c)
      = "a b".data.filter (fun c => !rustIsWs c)
    ∧ ∀ r ∈ Record.split (Record.new (.str "a b")) 2,
        (Content.toString r.content).data.length
          ≤ max ("a b".utf8ByteSize / 2) 1 :=
  c9_split_amended "a b" 2 (by decide)

end Orca
